import Mathlib

set_option maxRecDepth 1000000

/-!
Verification of the ai-scrum sprint runner core (shallow embedding).

This file embeds, in Lean 4, the parts of the Python sources relevant to the
scheduler / task-ledger / guardrail layer:

* `scripts/sprint_guardrails.py` : `CircuitBreaker`, `ContentFilter`,
  `PIIDetector`, `AgentGuardrails.validate_input` / `validate_output`;
* `scripts/parallel_sprint_runner.py` : the worker loop of
  `run_parallel_execution` and the turn-budget state machine of `run_agent`;
* `scripts/sprint_metadata.py` : `update_task_status_in_file`,
  `update_task_metadata_in_file` (fuzzy matching via `difflib.SequenceMatcher`);
* `scripts/sprint_tools.py` : `update_sprint_task_status`;
* `scripts/sprint_utils.py` : `parse_sprint_tasks`, `get_all_sprint_tasks`.

Python strings are modelled as `String`/`List Char` (ASCII payloads), Python
ints as `Int`/`Nat`, floats (difflib ratios) as exact rationals `ℚ`, file
contents as `String`, and the md5-prefix fingerprint used by the circuit
breaker as the identity normalization (fingerprints are the action strings
themselves).
-/

/- ### Circuit breaker (`sprint_guardrails.py`, class CircuitBreaker) -/

/-- One recorded outcome of the circuit breaker: `(action_hash, success)`.
The md5-prefix hash is modelled as the identity on action strings. -/
abbrev BreakerRecord := String × Bool

/-- Embedding of `collections.deque(maxlen=n)` append: the new element is
appended on the right and the oldest elements are evicted so that at most
`maxlen` remain. -/
def dequeAppend (maxlen : Nat) (xs : List BreakerRecord) (x : BreakerRecord) :
    List BreakerRecord :=
  let ys := xs ++ [x]
  ys.drop (ys.length - maxlen)

/-- The last `n` elements of a list (the contents of a `deque(maxlen=n)`
after appending the whole list). -/
def lastWindow (n : Nat) (l : List BreakerRecord) : List BreakerRecord :=
  l.drop (l.length - n)

/-- Embedding of `CircuitBreaker.__init__` state: `window_size` (default 10),
`failure_threshold` (default 3) and the rolling window `recent_actions`,
a single deque shared by all fingerprints, oldest first. -/
structure CircuitBreaker where
  window_size : Nat := 10
  failure_threshold : Nat := 3
  recent_actions : List BreakerRecord := []

/-- Embedding of `CircuitBreaker.record_action`: append `(hash, success)`
to the shared rolling window. -/
def CircuitBreaker.record_action (cb : CircuitBreaker) (action : String)
    (success : Bool) : CircuitBreaker :=
  { cb with recent_actions := dequeAppend cb.window_size cb.recent_actions (action, success) }

/-- Number of recorded failures of `action` currently in the window
(the `recent_failures` list comprehension of `is_open`). -/
def failuresFor (action : String) (window : List BreakerRecord) : Nat :=
  (window.filter (fun r => r.1 == action && !r.2)).length

/-- Embedding of `CircuitBreaker.is_open`: `(is_open, reason)`; open iff the
failure count of this specific action in the window reaches the threshold. -/
def CircuitBreaker.is_open (cb : CircuitBreaker) (action : String) :
    Bool × Option String :=
  let failure_count := failuresFor action cb.recent_actions
  if cb.failure_threshold ≤ failure_count then
    (true, some ("Circuit open: action failed " ++ toString failure_count ++
      " times in last " ++ toString cb.window_size ++ " attempts"))
  else
    (false, none)

/-- Folding a sequence of `record_action` calls over a breaker. -/
def recordAll (cb : CircuitBreaker) (records : List BreakerRecord) : CircuitBreaker :=
  records.foldl (fun c r => c.record_action r.1 r.2) cb

theorem dequeAppend_eq_lastWindow (m : Nat) (xs : List BreakerRecord) (x : BreakerRecord) :
    dequeAppend m xs x = lastWindow m (xs ++ [x]) := rfl

theorem lastWindow_append (m : Nat) (xs ys : List BreakerRecord) :
    lastWindow m (lastWindow m xs ++ ys) = lastWindow m (xs ++ ys) := by
  unfold lastWindow
  rcases le_or_lt xs.length m with hxs | hxs
  · rw [Nat.sub_eq_zero_of_le hxs, List.drop_zero]
  · have hA : (List.drop (xs.length - m) xs).length = m := by
      rw [List.length_drop]; omega
    rcases le_or_lt m ys.length with hys | hys
    · have e1 : (List.drop (xs.length - m) xs ++ ys).length - m =
          (List.drop (xs.length - m) xs).length + (ys.length - m) := by
        rw [List.length_append, hA]; omega
      have e2 : (xs ++ ys).length - m = xs.length + (ys.length - m) := by
        rw [List.length_append]; omega
      rw [e1, e2, List.drop_append, List.drop_append]
    · have e1 : (List.drop (xs.length - m) xs ++ ys).length - m = ys.length := by
        rw [List.length_append, hA]; omega
      have e2 : (xs ++ ys).length - m = xs.length + ys.length - m := by
        rw [List.length_append]
      rw [e1, e2]
      have h1 : ys.length ≤ (List.drop (xs.length - m) xs).length := by omega
      have h2 : xs.length + ys.length - m ≤ xs.length := by omega
      rw [List.drop_append_of_le_length h1, List.drop_append_of_le_length h2,
        List.drop_drop]
      congr 2
      omega

/-- The window that results from recording a list of outcomes is the suffix of
length `window_size` of all recorded outcomes (for any reachable breaker,
whose window never exceeds `window_size`). -/
theorem recordAll_recent (cb : CircuitBreaker) (records : List BreakerRecord)
    (h : cb.recent_actions.length ≤ cb.window_size) :
    (recordAll cb records).recent_actions =
      lastWindow cb.window_size (cb.recent_actions ++ records) ∧
    (recordAll cb records).window_size = cb.window_size ∧
    (recordAll cb records).failure_threshold = cb.failure_threshold := by
  induction records generalizing cb with
  | nil =>
    refine ⟨?_, rfl, rfl⟩
    show cb.recent_actions = lastWindow cb.window_size (cb.recent_actions ++ [])
    rw [List.append_nil]
    unfold lastWindow
    rw [Nat.sub_eq_zero_of_le h, List.drop_zero]
  | cons r rs ih =>
    have step : recordAll cb (r :: rs) =
        recordAll (cb.record_action r.1 r.2) rs := rfl
    rw [step]
    have hlen : (cb.record_action r.1 r.2).recent_actions.length ≤
        (cb.record_action r.1 r.2).window_size := by
      show (dequeAppend cb.window_size cb.recent_actions (r.1, r.2)).length ≤ cb.window_size
      unfold dequeAppend
      rw [List.length_drop]
      omega
    obtain ⟨h1, h2, h3⟩ := ih _ hlen
    refine ⟨?_, h2, h3⟩
    rw [h1]
    show lastWindow cb.window_size
        (dequeAppend cb.window_size cb.recent_actions (r.1, r.2) ++ rs) = _
    rw [dequeAppend_eq_lastWindow, lastWindow_append]
    simp

/-- When at least `m` new records arrive, the resulting window lies entirely
inside the new records. -/
theorem lastWindow_append_right (m : Nat) (xs ys : List BreakerRecord)
    (h : m ≤ ys.length) :
    lastWindow m (xs ++ ys) = lastWindow m ys := by
  unfold lastWindow
  have e : (xs ++ ys).length - m = xs.length + (ys.length - m) := by
    rw [List.length_append]; omega
  rw [e, List.drop_append]

/-- C3: for every fingerprint and every sequence of recorded outcomes (over the
default breaker: window 10, threshold 3), `is_open` is true iff the number of
recorded failures of that fingerprint within the current window (the last 10
outcomes) has reached 3; exactly 3 such failures imply open and 2 imply closed,
and the open reason states the failure count and the window size. -/
theorem circuit_isOpen_iff_failures_in_window (records : List BreakerRecord)
    (fp : String) :
    (((recordAll {} records).is_open fp).1 = true ↔
        3 ≤ failuresFor fp (lastWindow 10 records)) ∧
      (∀ n, failuresFor fp (lastWindow 10 records) = n → 3 ≤ n →
        ((recordAll {} records).is_open fp).2 =
          some ("Circuit open: action failed " ++ toString n ++
            " times in last " ++ toString (10 : Nat) ++ " attempts")) ∧
      (failuresFor fp (lastWindow 10 records) = 3 →
        ((recordAll {} records).is_open fp).1 = true) ∧
      (failuresFor fp (lastWindow 10 records) = 2 →
        ((recordAll {} records).is_open fp).1 = false) := by
  obtain ⟨hwin, hsize, hthr⟩ :=
    recordAll_recent {} records (by simp)
  have hwin' : (recordAll {} records).recent_actions = lastWindow 10 records := by
    rw [hwin]; rfl
  have hsize' : (recordAll {} records).window_size = 10 := hsize.trans rfl
  have hthr' : (recordAll {} records).failure_threshold = 3 := hthr.trans rfl
  have hopen : 3 ≤ failuresFor fp (lastWindow 10 records) →
      (recordAll {} records).is_open fp =
        (true, some ("Circuit open: action failed " ++
          toString (failuresFor fp (lastWindow 10 records)) ++
          " times in last " ++ toString (10 : Nat) ++ " attempts")) := by
    intro h3
    unfold CircuitBreaker.is_open
    rw [hwin', hsize', hthr', if_pos h3]
  have hclosed : failuresFor fp (lastWindow 10 records) < 3 →
      (recordAll {} records).is_open fp = (false, none) := by
    intro h3
    unfold CircuitBreaker.is_open
    rw [hwin', hsize', hthr', if_neg (by omega)]
  rcases le_or_lt 3 (failuresFor fp (lastWindow 10 records)) with h3 | h3
  · rw [hopen h3]
    refine ⟨⟨fun _ => h3, fun _ => rfl⟩, ?_, fun _ => rfl,
      fun h2 => absurd h3 (by omega)⟩
    intro n hn _
    rw [hn]
  · rw [hclosed h3]
    exact ⟨⟨fun h => absurd h (by simp), fun h => absurd h3 (by omega)⟩,
      fun n hn h3n => absurd h3n (by omega),
      fun h => absurd h3 (by omega), fun _ => rfl⟩

/-- Witness for C3 at a concrete input: after three recorded failures of
fingerprint `"deploy"`, the circuit is open. -/
theorem circuit_isOpen_iff_failures_in_window_witness :
    ((recordAll {} [("deploy", false), ("deploy", false), ("deploy", false)]).is_open
      "deploy").1 = true :=
  (circuit_isOpen_iff_failures_in_window
    [("deploy", false), ("deploy", false), ("deploy", false)] "deploy").1.mpr
    (by decide)

/-- C4 counterexample: the rolling window is shared between fingerprints.
After three failures of `"taskA"` the circuit for `"taskA"` is open, but
recording 10 outcomes for the distinct fingerprint `"taskB"` evicts all of
`"taskA"`'s entries and closes it again — so a sequence of `record` calls for
`B` does not leave `isOpen(A)` unchanged. -/
theorem circuit_window_not_per_fingerprint :
    ((recordAll {} (List.replicate 3 ("taskA", false))).is_open "taskA").1 = true ∧
    ((recordAll (recordAll {} (List.replicate 3 ("taskA", false)))
        (List.replicate 10 ("taskB", true))).is_open "taskA").1 = false := by
  decide

/-- C4 (amended): the circuit-breaker window is a single rolling window shared
by all fingerprints; failure counting is per fingerprint, but recording
`window_size` (or more) outcomes for a fingerprint `B` evicts every entry of a
distinct fingerprint `A`, after which `isOpen(A)` is closed. -/
theorem circuit_shared_window_eviction (cb : CircuitBreaker)
    (hreach : cb.recent_actions.length ≤ cb.window_size)
    (hthr : 1 ≤ cb.failure_threshold) (A B : String) (hAB : A ≠ B)
    (bs : List Bool) (hlen : cb.window_size ≤ bs.length) :
    (recordAll cb (bs.map (fun b => (B, b)))).is_open A = (false, none) := by
  obtain ⟨hwin, hsize, hthr'⟩ := recordAll_recent cb (bs.map (fun b => (B, b))) hreach
  have hwin' : (recordAll cb (bs.map (fun b => (B, b)))).recent_actions =
      lastWindow cb.window_size (bs.map (fun b => (B, b))) := by
    rw [hwin, lastWindow_append_right _ _ _ (by simpa using hlen)]
  have hcount : failuresFor A (lastWindow cb.window_size (bs.map (fun b => (B, b)))) = 0 := by
    unfold failuresFor
    rw [List.length_eq_zero, List.filter_eq_nil_iff]
    intro r hr
    have hrB : r.1 = B := by
      have hsuf : lastWindow cb.window_size (bs.map (fun b => (B, b))) <:+
          bs.map (fun b => (B, b)) := by
        unfold lastWindow
        exact List.drop_suffix _ _
      have hmem : r ∈ bs.map (fun b => (B, b)) := hsuf.subset hr
      obtain ⟨b, _, rfl⟩ := List.mem_map.mp hmem
      rfl
    simp [hrB, Ne.symm hAB]
  unfold CircuitBreaker.is_open
  rw [hwin', hcount, hsize, hthr']
  rw [if_neg (by omega)]

/-- Witness for C4 (amended): applied to the default breaker, fingerprints
`"taskA"` and `"taskB"`, and 10 recorded outcomes for `"taskB"`. -/
theorem circuit_shared_window_eviction_witness :
    (recordAll ({} : CircuitBreaker)
      ((List.replicate 10 true).map (fun b => ("taskB", b)))).is_open "taskA" =
      (false, none) :=
  circuit_shared_window_eviction {} (by simp) (by decide) "taskA" "taskB"
    (by decide) (List.replicate 10 true) (by decide)

/- ### Strings and lines (Python `str` / `readlines` on ASCII payloads) -/

/-- Python `\s` (ASCII whitespace as matched by `re` on ASCII text and by
`str.strip`/`str.rstrip`). -/
def isPySpace (c : Char) : Bool :=
  c = ' ' || c = '\t' || c = '\n' || c = '\x0d' || c = '\x0b' || c = '\x0c'

/-- Python `str.strip()`: trim whitespace from both ends. -/
def stripWs (l : List Char) : List Char :=
  ((l.dropWhile isPySpace).reverse.dropWhile isPySpace).reverse

/-- Python `str.rstrip()`: trim whitespace from the right end. -/
def rstripWs (l : List Char) : List Char :=
  (l.reverse.dropWhile isPySpace).reverse

/-- Python `str.lower()` (ASCII). -/
def lowerAll (l : List Char) : List Char :=
  l.map Char.toLower

/-- Embedding of `f.readlines()`: split after each newline, keeping it; a final
fragment without a newline is kept as the last line. -/
def splitLinesAux (cur : List Char) : List Char → List (List Char)
  | [] => if cur = [] then [] else [cur.reverse]
  | c :: cs =>
    if c = '\n' then (cur.reverse ++ ['\n']) :: splitLinesAux [] cs
    else splitLinesAux (c :: cur) cs

/-- The lines of a file's content, as `readlines` returns them. -/
def splitLines (content : List Char) : List (List Char) :=
  splitLinesAux [] content

/-- Embedding of `f.writelines(lines)` into an empty file: concatenation. -/
def joinLines (lines : List (List Char)) : List Char :=
  lines.flatten

/-- Python `needle in haystack` on `List Char`. -/
def listContains (hay needle : List Char) : Bool :=
  decide (needle <:+: hay)

/- ### Normalization scanners of `sprint_metadata.py` -/

/-- Embedding of `re.sub(r'\[.*?\]', '', s)` helper: the index of the first
`']'` reachable without crossing a newline (`.` does not match `'\n'`). -/
def findClose : List Char → Option Nat
  | [] => none
  | c :: cs =>
    if c = ']' then some 0
    else if c = '\n' then none
    else (findClose cs).map (· + 1)

/-- Embedding of `re.sub(r'\[.*?\]', '', s)`: remove every bracketed span
(leftmost-first, non-greedy, not crossing newlines). Fuel-based recursion
(any fuel at least the list length computes the fixpoint). -/
def removeBracketsAux : Nat → List Char → List Char
  | 0, l => l
  | _ + 1, [] => []
  | fuel + 1, c :: cs =>
    if c = '[' then
      match findClose cs with
      | some k => removeBracketsAux fuel (cs.drop (k + 1))
      | none => c :: removeBracketsAux fuel cs
    else c :: removeBracketsAux fuel cs

/-- `re.sub(r'\[.*?\]', '', s)` with sufficient fuel. -/
def removeBrackets (l : List Char) : List Char :=
  removeBracketsAux l.length l

/-- Embedding of `re.sub(r'^[\s\-\*]+', '', s)`: strip the leading run of
whitespace, bullets and asterisks (applied to the query). -/
def stripQueryPrefixMarks (l : List Char) : List Char :=
  l.dropWhile (fun c => isPySpace c || c = '-' || c = '*')

/-- Embedding of `re.sub(r'[\'"`]', '', s)`: drop single quotes, double quotes
and backquotes. -/
def removeQuotes (l : List Char) : List Char :=
  l.filter (fun c => !(c = '\'' || c = '"' || c = Char.ofNat 96))

/-- The status-character class `[x /!]` of the task-line regexes. -/
def isStatusChar (c : Char) : Bool :=
  c = 'x' || c = ' ' || c = '/' || c = '!'

/-- Result of matching `^\s*-\s*\[[x /!]\]` against a line: the two
whitespace runs, the status character, and the remainder of the line. -/
structure TaskPrefix where
  ws1 : List Char
  ws2 : List Char
  statusChar : Char
  rest : List Char
deriving DecidableEq

/-- Embedding of `re.match(r'^\s*-\s*\[[x /!]\]', line)`: both `\s*` runs are
maximal (no shorter run can be followed by the required literal). -/
def parseTaskPrefix (l : List Char) : Option TaskPrefix :=
  match l.dropWhile isPySpace with
  | '-' :: r1 =>
    match r1.dropWhile isPySpace with
    | '[' :: c :: ']' :: rest =>
      if isStatusChar c then
        some ⟨l.takeWhile isPySpace, r1.takeWhile isPySpace, c, rest⟩
      else none
    | _ => none
  | _ => none

/-- A line "looks like a task" for the fuzzy-update candidate filter. -/
def isCandidate (l : List Char) : Bool :=
  (parseTaskPrefix l).isSome

/-- Embedding of `re.sub(r'^\s*-\s*\[[x /!]\]', '', clean_line)`. -/
def removeCheckmark (l : List Char) : List Char :=
  match parseTaskPrefix l with
  | some tp => tp.rest
  | none => l

/-- Query normalization of `update_task_status_in_file` /
`update_task_metadata_in_file`: strip bracketed spans, leading
whitespace/bullet/asterisk marks, quotes, surrounding whitespace, and case. -/
def cleanSearch (q : List Char) : List Char :=
  lowerAll (stripWs (removeQuotes (stripQueryPrefixMarks (removeBrackets q))))

/-- Candidate-line normalization of the same functions: strip bracketed spans,
then the checkmark prefix (dead after bracket removal), quotes, surrounding
whitespace, and case. -/
def cleanLine (l : List Char) : List Char :=
  lowerAll (stripWs (removeQuotes (removeCheckmark (removeBrackets l))))

/-- Python `status.strip("[]")`. -/
def stripBracketChars (s : List Char) : List Char :=
  ((s.dropWhile (fun c => c = '[' || c = ']')).reverse.dropWhile
    (fun c => c = '[' || c = ']')).reverse

/-- Embedding of `re.sub(r'(-\s*\[)[x /!](\])', fr'\1{repl}\2', line, count=1)`:
rewrite the status character of the first (leftmost) `-\s*\[[x /!]\]`
occurrence, keeping everything else. -/
def statusSub (repl : List Char) : List Char → List Char
  | [] => []
  | c :: cs =>
    if c = '-' then
      match cs.dropWhile isPySpace with
      | '[' :: d :: ']' :: rest =>
        if isStatusChar d then
          c :: cs.takeWhile isPySpace ++ '[' :: repl ++ ']' :: rest
        else c :: statusSub repl cs
      | _ => c :: statusSub repl cs
    else c :: statusSub repl cs

/- ### difflib.SequenceMatcher (CPython, `isjunk=None`, `autojunk=True`) -/

/-- The `b2j` table of `SequenceMatcher.__chain_b`: ascending indices of a
character in `b`, with the autojunk rule (when `len(b) >= 200`, characters
occurring more than `len(b)//100 + 1` times are dropped from the table). -/
def b2jIndices (b : List Char) (c : Char) : List Nat :=
  let idxs := (List.range b.length).filter (fun j => b.getD j ' ' = c)
  if 200 ≤ b.length ∧ b.length / 100 + 1 < idxs.length then [] else idxs

/-- `j2len.get(j, 0)` on the association list representing `j2len`. -/
def lookupJ2 (m : List (Nat × Nat)) (j : Nat) : Nat :=
  match m.find? (fun p => p.1 = j) with
  | some p => p.2
  | none => 0

/-- Accumulator of `find_longest_match`'s dynamic-programming loop. -/
structure FlmAcc where
  newj2len : List (Nat × Nat)
  besti : Nat
  bestj : Nat
  bestsize : Nat

/-- Inner loop of `find_longest_match` over `b2j[a[i]]` (ascending `j`),
with the `j < blo` continue and `j >= bhi` break. -/
def flmInner (j2len : List (Nat × Nat)) (blo bhi i : Nat) :
    List Nat → FlmAcc → FlmAcc
  | [], acc => acc
  | j :: js, acc =>
    if j < blo then flmInner j2len blo bhi i js acc
    else if bhi ≤ j then acc
    else
      let k := (if j = 0 then 0 else lookupJ2 j2len (j - 1)) + 1
      let acc' : FlmAcc :=
        { newj2len := acc.newj2len ++ [(j, k)]
          besti := if acc.bestsize < k then i + 1 - k else acc.besti
          bestj := if acc.bestsize < k then j + 1 - k else acc.bestj
          bestsize := if acc.bestsize < k then k else acc.bestsize }
      flmInner j2len blo bhi i js acc'

/-- Outer loop of `find_longest_match` over `i` in `range(alo, ahi)`. -/
def flmOuter (a b : List Char) (blo bhi : Nat) :
    List Nat → List (Nat × Nat) → Nat → Nat → Nat → Nat × Nat × Nat
  | [], _, besti, bestj, bestsize => (besti, bestj, bestsize)
  | i :: is', j2len, besti, bestj, bestsize =>
    let acc := flmInner j2len blo bhi i (b2jIndices b (a.getD i ' '))
      { newj2len := [], besti := besti, bestj := bestj, bestsize := bestsize }
    flmOuter a b blo bhi is' acc.newj2len acc.besti acc.bestj acc.bestsize

/-- Left extension loop of `find_longest_match` (`bjunk` is empty with
`isjunk=None`, so the junk-guarded loops never fire and the non-junk loops
extend over any equal characters). Fuel bounds the iteration count. -/
def extendLeft (a b : List Char) (alo blo : Nat) :
    Nat → Nat → Nat → Nat → Nat × Nat × Nat
  | 0, bi, bj, bs => (bi, bj, bs)
  | fuel + 1, bi, bj, bs =>
    if alo < bi ∧ blo < bj ∧ a.getD (bi - 1) ' ' = b.getD (bj - 1) ' ' then
      extendLeft a b alo blo fuel (bi - 1) (bj - 1) (bs + 1)
    else (bi, bj, bs)

/-- Right extension loop of `find_longest_match`. -/
def extendRight (a b : List Char) (ahi bhi : Nat) :
    Nat → Nat → Nat → Nat → Nat
  | 0, _, _, bs => bs
  | fuel + 1, bi, bj, bs =>
    if bi + bs < ahi ∧ bj + bs < bhi ∧ a.getD (bi + bs) ' ' = b.getD (bj + bs) ' ' then
      extendRight a b ahi bhi fuel bi bj (bs + 1)
    else bs

/-- `SequenceMatcher.find_longest_match(alo, ahi, blo, bhi)` (no junk):
the DP loop followed by the two equal-character extension loops. -/
def find_longest_match (a b : List Char) (alo ahi blo bhi : Nat) :
    Nat × Nat × Nat :=
  let dp := flmOuter a b blo bhi (List.range' alo (ahi - alo)) [] alo blo 0
  let l := extendLeft a b alo blo dp.1 dp.1 dp.2.1 dp.2.2
  let r := extendRight a b ahi bhi ahi l.1 l.2.1 l.2.2
  (l.1, l.2.1, r)

/-- Total size of all matching blocks (`get_matching_blocks` recursion;
the queue order and adjacent-block merging do not change the sum).
Fuel dominates the recursion depth. -/
def matchesSumAux (a b : List Char) :
    Nat → Nat → Nat → Nat → Nat → Nat
  | 0, _, _, _, _ => 0
  | fuel + 1, alo, ahi, blo, bhi =>
    let m := find_longest_match a b alo ahi blo bhi
    if m.2.2 = 0 then 0
    else
      m.2.2 +
        (if alo < m.1 ∧ blo < m.2.1 then
          matchesSumAux a b fuel alo m.1 blo m.2.1 else 0) +
        (if m.1 + m.2.2 < ahi ∧ m.2.1 + m.2.2 < bhi then
          matchesSumAux a b fuel (m.1 + m.2.2) ahi (m.2.1 + m.2.2) bhi else 0)

/-- `sum(size for block in get_matching_blocks())` over the whole sequences. -/
def matchesTotal (a b : List Char) : Nat :=
  matchesSumAux a b (a.length + b.length + 1) 0 a.length 0 b.length

/-- `SequenceMatcher.ratio()`: `2*M/T` as an exact rational
(`_calculate_ratio` returns 1.0 when `T == 0`). -/
def ratioValue (a b : List Char) : ℚ :=
  if a.length + b.length = 0 then 1
  else mkRat (2 * (matchesTotal a b : Int)) (a.length + b.length)

/- #### Bounds of `find_longest_match` and the ratio -/

/-- Invariant of a `j2len` row built while processing index `i`: every entry
`(j, k)` is a chain of length `k` ending at column `j` inside `[blo, bhi)`,
so `k` is bounded by both the column and row offsets. -/
def rowOK (blo bhi bound : Nat) (m : List (Nat × Nat)) : Prop :=
  ∀ p ∈ m, blo ≤ p.1 ∧ p.1 < bhi ∧ p.2 ≤ p.1 + 1 - blo ∧ p.2 ≤ bound

/-- Invariant of the running best block. -/
def accOK (alo ahi blo bhi : Nat) (bi bj bs : Nat) : Prop :=
  alo ≤ bi ∧ blo ≤ bj ∧ (bs = 0 → bi = alo ∧ bj = blo) ∧
    (bs ≠ 0 → bi + bs ≤ ahi ∧ bj + bs ≤ bhi)

theorem lookupJ2_bound (m : List (Nat × Nat)) (blo bhi bound j : Nat)
    (hm : rowOK blo bhi bound m) :
    lookupJ2 m j = 0 ∨
      (blo ≤ j ∧ lookupJ2 m j ≤ j + 1 - blo ∧ lookupJ2 m j ≤ bound) := by
  cases hfind : m.find? (fun p => p.1 = j) with
  | none => exact Or.inl (by unfold lookupJ2; rw [hfind])
  | some p =>
    have hval : lookupJ2 m j = p.2 := by unfold lookupJ2; rw [hfind]
    have hmem := List.mem_of_find?_eq_some hfind
    have hp := List.find?_some hfind
    have hj : p.1 = j := by simpa using hp
    obtain ⟨h1, _, h3, h4⟩ := hm p hmem
    rw [hval]
    exact Or.inr ⟨hj ▸ h1, by omega, h4⟩

theorem flmInner_ok (j2len : List (Nat × Nat)) (alo ahi blo bhi i : Nat)
    (hi1 : alo ≤ i) (hi2 : i < ahi)
    (hrow : rowOK blo bhi (i - alo) j2len)
    (js : List Nat) (acc : FlmAcc)
    (hnew : rowOK blo bhi (i + 1 - alo) acc.newj2len)
    (hacc : accOK alo ahi blo bhi acc.besti acc.bestj acc.bestsize) :
    rowOK blo bhi (i + 1 - alo) (flmInner j2len blo bhi i js acc).newj2len ∧
      accOK alo ahi blo bhi (flmInner j2len blo bhi i js acc).besti
        (flmInner j2len blo bhi i js acc).bestj
        (flmInner j2len blo bhi i js acc).bestsize := by
  induction js generalizing acc with
  | nil => exact ⟨hnew, hacc⟩
  | cons j js ih =>
    unfold flmInner
    by_cases hjlo : j < blo
    · rw [if_pos hjlo]
      exact ih acc hnew hacc
    · rw [if_neg hjlo]
      by_cases hjhi : bhi ≤ j
      · rw [if_pos hjhi]
        exact ⟨hnew, hacc⟩
      · rw [if_neg hjhi]
        have hk : ((if j = 0 then 0 else lookupJ2 j2len (j - 1)) + 1) ≤ j + 1 - blo ∧
            ((if j = 0 then 0 else lookupJ2 j2len (j - 1)) + 1) ≤ i + 1 - alo := by
          by_cases hj0 : j = 0
          · rw [if_pos hj0]
            omega
          · rw [if_neg hj0]
            rcases lookupJ2_bound j2len blo bhi (i - alo) (j - 1) hrow with h | ⟨h1, h2, h3⟩
            · rw [h]; omega
            · omega
        apply ih
        · dsimp only
          intro p hp
          rcases List.mem_append.mp hp with hp | hp
          · exact hnew p hp
          · have hpj : p = (j, (if j = 0 then 0 else lookupJ2 j2len (j - 1)) + 1) := by
              simpa using hp
            subst hpj
            exact ⟨by omega, by omega, hk.1, hk.2⟩
        · dsimp only
          by_cases hbest : acc.bestsize < (if j = 0 then 0 else lookupJ2 j2len (j - 1)) + 1
          · simp only [if_pos hbest]
            refine ⟨by omega, by omega, by omega, fun _ => ⟨by omega, by omega⟩⟩
          · simp only [if_neg hbest]
            exact hacc

theorem flmOuter_ok (a b : List Char) (alo ahi blo bhi : Nat) :
    ∀ (n i0 : Nat) (j2len : List (Nat × Nat)) (bi bj bs : Nat),
      alo ≤ i0 → i0 + n ≤ ahi →
      rowOK blo bhi (i0 - alo) j2len →
      accOK alo ahi blo bhi bi bj bs →
      accOK alo ahi blo bhi
        (flmOuter a b blo bhi (List.range' i0 n) j2len bi bj bs).1
        (flmOuter a b blo bhi (List.range' i0 n) j2len bi bj bs).2.1
        (flmOuter a b blo bhi (List.range' i0 n) j2len bi bj bs).2.2 := by
  intro n
  induction n with
  | zero => intro i0 j2len bi bj bs _ _ _ hacc; exact hacc
  | succ n ih =>
    intro i0 j2len bi bj bs h1 h2 hrow hacc
    rw [List.range'_succ]
    unfold flmOuter
    have hinner := flmInner_ok j2len alo ahi blo bhi i0 h1 (by omega) hrow
      (b2jIndices b (a.getD i0 ' '))
      { newj2len := [], besti := bi, bestj := bj, bestsize := bs }
      (by intro p hp; simp at hp) hacc
    exact ih (i0 + 1) _ _ _ _ (by omega) (by omega)
      (by simpa using hinner.1) hinner.2

theorem extendLeft_ok (a b : List Char) (alo ahi blo bhi : Nat) :
    ∀ (fuel bi bj bs : Nat),
      accOK alo ahi blo bhi bi bj bs →
      accOK alo ahi blo bhi (extendLeft a b alo blo fuel bi bj bs).1
        (extendLeft a b alo blo fuel bi bj bs).2.1
        (extendLeft a b alo blo fuel bi bj bs).2.2 := by
  intro fuel
  induction fuel with
  | zero => intro bi bj bs hacc; exact hacc
  | succ fuel ih =>
    intro bi bj bs hacc
    unfold extendLeft
    by_cases hg : alo < bi ∧ blo < bj ∧ a.getD (bi - 1) ' ' = b.getD (bj - 1) ' '
    · rw [if_pos hg]
      apply ih
      obtain ⟨h1, h2, h3, h4⟩ := hacc
      by_cases hbs : bs = 0
      · obtain ⟨hbi, _⟩ := h3 hbs
        omega
      · obtain ⟨hA, hB⟩ := h4 hbs
        exact ⟨by omega, by omega, by omega, fun _ => ⟨by omega, by omega⟩⟩
    · rw [if_neg hg]
      exact hacc

theorem extendRight_ok (a b : List Char) (alo ahi blo bhi : Nat) :
    ∀ (fuel bi bj bs : Nat),
      accOK alo ahi blo bhi bi bj bs →
      accOK alo ahi blo bhi bi bj (extendRight a b ahi bhi fuel bi bj bs) := by
  intro fuel
  induction fuel with
  | zero => intro bi bj bs hacc; exact hacc
  | succ fuel ih =>
    intro bi bj bs hacc
    unfold extendRight
    by_cases hg : bi + bs < ahi ∧ bj + bs < bhi ∧
        a.getD (bi + bs) ' ' = b.getD (bj + bs) ' '
    · rw [if_pos hg]
      apply ih
      obtain ⟨h1, h2, h3, h4⟩ := hacc
      exact ⟨h1, h2, by omega, fun _ => ⟨by omega, by omega⟩⟩
    · rw [if_neg hg]
      exact hacc

/-- Bounds of `find_longest_match`: the reported block lies inside the
requested ranges. -/
theorem flm_bounds (a b : List Char) (alo ahi blo bhi : Nat) :
    alo ≤ (find_longest_match a b alo ahi blo bhi).1 ∧
    blo ≤ (find_longest_match a b alo ahi blo bhi).2.1 ∧
    ((find_longest_match a b alo ahi blo bhi).2.2 ≠ 0 →
      (find_longest_match a b alo ahi blo bhi).1 +
        (find_longest_match a b alo ahi blo bhi).2.2 ≤ ahi ∧
      (find_longest_match a b alo ahi blo bhi).2.1 +
        (find_longest_match a b alo ahi blo bhi).2.2 ≤ bhi) := by
  unfold find_longest_match
  have hacc0 : accOK alo ahi blo bhi alo blo 0 :=
    ⟨le_refl alo, le_refl blo, fun _ => ⟨rfl, rfl⟩, fun h => absurd rfl h⟩
  have hdp : accOK alo ahi blo bhi
      (flmOuter a b blo bhi (List.range' alo (ahi - alo)) [] alo blo 0).1
      (flmOuter a b blo bhi (List.range' alo (ahi - alo)) [] alo blo 0).2.1
      (flmOuter a b blo bhi (List.range' alo (ahi - alo)) [] alo blo 0).2.2 := by
    rcases le_or_lt alo ahi with hle | hlt
    · exact flmOuter_ok a b alo ahi blo bhi (ahi - alo) alo [] alo blo 0
        (le_refl alo) (by omega) (by intro p hp; simp at hp) hacc0
    · have h0 : ahi - alo = 0 := by omega
      rw [h0]
      exact hacc0
  set dp := flmOuter a b blo bhi (List.range' alo (ahi - alo)) [] alo blo 0
  have hl := extendLeft_ok a b alo ahi blo bhi dp.1 dp.1 dp.2.1 dp.2.2 hdp
  set l := extendLeft a b alo blo dp.1 dp.1 dp.2.1 dp.2.2
  have hr := extendRight_ok a b alo ahi blo bhi ahi l.1 l.2.1 l.2.2 hl
  exact ⟨hr.1, hr.2.1, fun h => hr.2.2.2 h⟩

/-- The total matching size is bounded by both range sizes. -/
theorem matchesSumAux_le (a b : List Char) :
    ∀ (fuel alo ahi blo bhi : Nat),
      matchesSumAux a b fuel alo ahi blo bhi ≤ min (ahi - alo) (bhi - blo) := by
  intro fuel
  induction fuel with
  | zero => intro alo ahi blo bhi; simp [matchesSumAux]
  | succ fuel ih =>
    intro alo ahi blo bhi
    unfold matchesSumAux
    set m := find_longest_match a b alo ahi blo bhi with hm
    obtain ⟨hb1, hb2, hb3⟩ := flm_bounds a b alo ahi blo bhi
    rw [← hm] at hb1 hb2 hb3
    by_cases hk : m.2.2 = 0
    · rw [if_pos hk]
      omega
    · rw [if_neg hk]
      obtain ⟨hA, hB⟩ := hb3 hk
      have hleft : (if alo < m.1 ∧ blo < m.2.1 then
          matchesSumAux a b fuel alo m.1 blo m.2.1 else 0) ≤
          min (m.1 - alo) (m.2.1 - blo) := by
        split
        · exact ih alo m.1 blo m.2.1
        · omega
      have hright : (if m.1 + m.2.2 < ahi ∧ m.2.1 + m.2.2 < bhi then
          matchesSumAux a b fuel (m.1 + m.2.2) ahi (m.2.1 + m.2.2) bhi else 0) ≤
          min (ahi - (m.1 + m.2.2)) (bhi - (m.2.1 + m.2.2)) := by
        split
        · exact ih (m.1 + m.2.2) ahi (m.2.1 + m.2.2) bhi
        · omega
      omega

/-- `matchesTotal` is at most the length of either string. -/
theorem matchesTotal_le (a b : List Char) :
    matchesTotal a b ≤ min a.length b.length := by
  have h := matchesSumAux_le a b (a.length + b.length + 1) 0 a.length 0 b.length
  simpa using h

/-- The similarity ratio lies in `[0, 1]`. -/
theorem ratioValue_mem_unit (a b : List Char) :
    0 ≤ ratioValue a b ∧ ratioValue a b ≤ 1 := by
  unfold ratioValue
  by_cases hT : a.length + b.length = 0
  · rw [if_pos hT]
    norm_num
  · rw [if_neg hT]
    rw [Rat.mkRat_eq_div]
    have hM := matchesTotal_le a b
    have hT' : (0 : ℚ) < ((a.length + b.length : Nat) : ℚ) := by
      have : 0 < a.length + b.length := Nat.pos_of_ne_zero hT
      exact_mod_cast this
    constructor
    · apply div_nonneg _ (le_of_lt _)
      · have : (0 : Int) ≤ 2 * (matchesTotal a b : Int) := by positivity
        exact_mod_cast this
      · exact_mod_cast hT'
    · rw [div_le_one (by exact_mod_cast hT')]
      have h2 : 2 * matchesTotal a b ≤ a.length + b.length := by omega
      exact_mod_cast h2

/- ### Fuzzy lookup and update (`sprint_metadata.py`) -/

/-- The boosted similarity score of one candidate: `SequenceMatcher.ratio()`,
raised to at least 0.85 when one normalized string contains the other. -/
def boostedRatioFor (clean_search clean_line : List Char) : ℚ :=
  if clean_search <:+: clean_line ∨ clean_line <:+: clean_search then
    max (ratioValue clean_search clean_line) (mkRat 85 100)
  else ratioValue clean_search clean_line

/-- Running best of the fuzzy-match phase: `best_ratio` (starts 0.0) and
`best_idx` (`none` models the initial `-1`). -/
structure BestAcc where
  best_ratio : ℚ
  best_idx : Option Nat
deriving DecidableEq

/-- The fuzzy-match loop: score every candidate task line against the
normalized query, keeping the first line attaining the strictly largest
boosted score. -/
def fuzzyScanAux (clean_search : List Char) :
    List (List Char) → Nat → BestAcc → BestAcc
  | [], _, acc => acc
  | l :: ls, i, acc =>
    if isCandidate l then
      fuzzyScanAux clean_search ls (i + 1)
        (if acc.best_ratio < boostedRatioFor clean_search (cleanLine l) then
          ⟨boostedRatioFor clean_search (cleanLine l), some i⟩
        else acc)
    else fuzzyScanAux clean_search ls (i + 1) acc

/-- Result of the whole fuzzy scan of a file's lines. -/
def fuzzyScan (clean_search : List Char) (lines : List (List Char)) : BestAcc :=
  fuzzyScanAux clean_search lines 0 ⟨0, none⟩

/-- Embedding of `update_task_status_in_file(sprint_file, task_desc, status)`
on the file's content (the file exists and reads/writes succeed): returns the
Python result and the resulting file content. -/
def update_task_status_in_file (content : String) (task_desc : String)
    (status : String) : Bool × String :=
  let lines := splitLines content.toList
  let acc := fuzzyScan (cleanSearch task_desc.toList) lines
  if acc.best_ratio < mkRat 3 5 then (false, content)
  else
    match acc.best_idx with
    | none => (false, content)
    | some i =>
      let target := lines.getD i []
      let new_line := statusSub (stripBracketChars status.toList) target
      if new_line ≠ target then
        (true, String.mk (joinLines (lines.set i new_line)))
      else (true, content)

/- #### The update-phase regex of `update_task_metadata_in_file` -/

/-- Whether a suffix consists of whitespace only (`\s*$`; `$` also matches just
before a terminal newline, which `\s*` may consume). -/
def restAllWs (s : List Char) : Bool :=
  s.all isPySpace

/-- Lazy `.*?\]` followed by `(\s*)$`: split off the smallest bracket body (not
crossing a newline) whose closing `']'` is followed only by whitespace. -/
def lazyCloseWsEnd : List Char → Option (List Char × List Char)
  | [] => none
  | c :: cs =>
    if c = ']' ∧ restAllWs cs then some ([], cs)
    else if c = '\n' then none
    else (lazyCloseWsEnd cs).map (fun p => (c :: p.1, p.2))

/-- The optional group `(\s*\[.*?\])` immediately followed by `(\s*)$`:
the group's `\s*` is maximal (no shorter run can reach the required `'['`). -/
def tryMetaAt (rest : List Char) : Option (List Char × List Char) :=
  match rest.dropWhile isPySpace with
  | '[' :: cs =>
    match lazyCloseWsEnd cs with
    | some (mid, tail) =>
      some (rest.takeWhile isPySpace ++ '[' :: mid ++ [']'], tail)
    | none => none
  | _ => none

/-- Groups of `re.match(r'(^\s*-\s*\[[x /!]\]\s*)(.*?)(\s*\[.*?\])?(\s*)$', line)`. -/
structure UpdateGroups where
  pre : List Char
  task_text : List Char
  meta : List Char
  g4 : List Char
deriving DecidableEq

/-- The lazy `(.*?)` group: grow from the left; at each split try the optional
metadata group first, then the bare `(\s*)$`. -/
def pulGo : List Char → List Char → Option (List Char × List Char × List Char)
  | acc, [] =>
    match tryMetaAt [] with
    | some (c, d) => some (acc.reverse, c, d)
    | none => if restAllWs [] then some (acc.reverse, [], []) else none
  | acc, c :: cs =>
    match tryMetaAt (c :: cs) with
    | some (cc, d) => some (acc.reverse, cc, d)
    | none =>
      if restAllWs (c :: cs) then some (acc.reverse, [], c :: cs)
      else if c = '\n' then none
      else pulGo (c :: acc) cs

/-- Embedding of the update-phase regex of `update_task_metadata_in_file`. -/
def parseUpdateLine (l : List Char) : Option UpdateGroups :=
  match parseTaskPrefix l with
  | none => none
  | some tp =>
    let ws3 := tp.rest.takeWhile isPySpace
    match pulGo [] (tp.rest.dropWhile isPySpace) with
    | none => none
    | some (b, c, d) =>
      some ⟨tp.ws1 ++ '-' :: tp.ws2 ++ '[' :: tp.statusChar :: ']' :: ws3,
            b, c, d⟩

/- #### Metadata-dict handling of `update_task_metadata_in_file` -/

/-- Python-dict upsert (`d[k] = v`): overwrite in place, append when new. -/
def dictInsert (m : List (List Char × List Char)) (k v : List Char) :
    List (List Char × List Char) :=
  if m.any (fun p => p.1 = k) then
    m.map (fun p => if p.1 = k then (k, v) else p)
  else m ++ [(k, v)]

/-- Rejoin the tail of `splitOn ':'` (everything after the first colon). -/
def joinColon : List (List Char) → List Char
  | [] => []
  | [p] => p
  | p :: ps => p ++ ':' :: joinColon ps

/-- `pair.split(':', 1)` when `':' in pair` (else no entry), with both parts
stripped. -/
def splitColon (pair : List Char) : Option (List Char × List Char) :=
  match pair.splitOn ':' with
  | [] => none
  | [_] => none
  | k :: rest => some (stripWs k, stripWs (joinColon rest))

/-- Parse `K1:V1|K2:V2` (already bracket-stripped) into the ordered dict. -/
def parseMetadataPairs (metadata_str : List Char) :
    List (List Char × List Char) :=
  (metadata_str.splitOn '|').foldl
    (fun m pair =>
      match splitColon pair with
      | some (k, v) => dictInsert m k v
      | none => m)
    []

/-- Rebuild `K1:V1|K2:V2` from the ordered dict. -/
def rebuildPairs : List (List Char × List Char) → List Char
  | [] => []
  | [(k, v)] => k ++ ':' :: v
  | (k, v) :: ps => k ++ ':' :: v ++ '|' :: rebuildPairs ps

/-- Python `existing_metadata.strip().strip('[]')`. -/
def stripMetaBrackets (s : List Char) : List Char :=
  stripBracketChars (stripWs s)

/-- The first `'['` (if any) from which `\s*\[.*?\]\s*$` matches, for the
`re.sub(r'\s*\[.*?\]\s*$', '', task_text)` double cleanup. -/
def rtbLoc : List Char → Option Nat
  | [] => none
  | c :: cs =>
    if c = '[' ∧ (lazyCloseWsEnd cs).isSome then some 0
    else (rtbLoc cs).map (· + 1)

/-- Embedding of `re.sub(r'\s*\[.*?\]\s*$', '', task_text)`: delete the
trailing bracketed span and the whitespace run just before it. -/
def removeTrailingBracketSpan (s : List Char) : List Char :=
  match rtbLoc s with
  | none => s
  | some q =>
    s.take (q - ((s.take q).reverse.takeWhile isPySpace).length)

/-- Embedding of
`update_task_metadata_in_file(sprint_file, task_desc, new_metadata)` on the
file's content: fuzzy lookup, then merge of the metadata pairs into the
trailing `[K:V|K:V]` block of the matched line. -/
def update_task_metadata_in_file (content : String) (task_desc : String)
    (new_metadata : List (String × String)) : Bool × String :=
  let lines := splitLines content.toList
  let acc := fuzzyScan (cleanSearch task_desc.toList) lines
  if acc.best_ratio < mkRat 3 5 then (false, content)
  else
    match acc.best_idx with
    | none => (false, content)
    | some i =>
      let target := lines.getD i []
      match parseUpdateLine target with
      | none => (false, content)
      | some g =>
        let metadata_dict :=
          if g.meta ≠ [] then parseMetadataPairs (stripMetaBrackets g.meta)
          else []
        let merged := new_metadata.foldl
          (fun m kv => dictInsert m kv.1.toList kv.2.toList) metadata_dict
        let new_metadata_str :=
          if merged ≠ [] then ' ' :: '[' :: rebuildPairs merged ++ [']']
          else []
        let task_text := stripWs (removeTrailingBracketSpan g.task_text)
        let new_line := g.pre ++ task_text ++ new_metadata_str ++ ['\n']
        if new_line ≠ target then
          (true, String.mk (joinLines (lines.set i new_line)))
        else (true, content)

/- ### `update_sprint_task_status` (`sprint_tools.py`) -/

/-- Outcome of the `update_sprint_task_status` tool (file content carried
separately): `valueError` models the raised `ValueError`, `notFound` the
"Task ... not found" return, `success` the success messages. -/
inductive ToolOutcome where
  | valueError
  | notFound
  | success
deriving DecidableEq

/-- The blocker-append loop of `update_sprint_task_status`: at the first line
containing both the task description and the literal `f"- [{status}]"`, append
`" [BLOCKED: reason]"` (before the newline) unless `"[BLOCKED:"` already
occurs in the line, and stop. -/
def appendBlockerLoop (desc statusPat reason : List Char) :
    List (List Char) → List (List Char)
  | [] => []
  | l :: ls =>
    if listContains l desc ∧ listContains l statusPat then
      (if listContains l ("[BLOCKED:".toList) then l
       else rstripWs l ++ " [BLOCKED: ".toList ++ reason ++ "]\n".toList) :: ls
    else l :: appendBlockerLoop desc statusPat reason ls

/-- Embedding of `update_sprint_task_status(task_description, status,
blocker_reason)` on the latest sprint file's content: validation, fuzzy status
update, then the blocker-reason append pass (which searches for the malformed
literal `f"- [{status}]"` — `"- [[!]]"` when `status="[!]"`). -/
def update_sprint_task_status (content : String) (task_description : String)
    (status : String) (blocker_reason : Option String) : ToolOutcome × String :=
  if status = "[!]" ∧ (blocker_reason = none ∨ blocker_reason = some "") then
    (.valueError, content)
  else
    let r := update_task_status_in_file content task_description status
    if !r.1 then (.notFound, r.2)
    else
      match blocker_reason with
      | none => (.success, r.2)
      | some reason =>
        if reason = "" then (.success, r.2)
        else
          let lines := splitLines r.2.toList
          let statusPat := "- [".toList ++ status.toList ++ [']']
          let lines' := appendBlockerLoop task_description.toList statusPat
            reason.toList lines
          (.success, String.mk (joinLines lines'))

/- ### Theorems about the fuzzy update operations -/

/-- A scan that never selects a line returns its accumulator unchanged. -/
theorem fuzzyScanAux_none (cs : List Char) (ls : List (List Char)) (i : Nat)
    (acc : BestAcc) (h : (fuzzyScanAux cs ls i acc).best_idx = none) :
    fuzzyScanAux cs ls i acc = acc := by
  induction ls generalizing i acc with
  | nil => rfl
  | cons l ls ih =>
    unfold fuzzyScanAux at h ⊢
    by_cases hc : isCandidate l
    · rw [if_pos hc] at h ⊢
      by_cases hlt : acc.best_ratio < boostedRatioFor cs (cleanLine l)
      · rw [if_pos hlt] at h ⊢
        have h2 := ih (i + 1) _ h
        rw [h2] at h
        simp at h
      · rw [if_neg hlt] at h ⊢
        exact ih (i + 1) acc h
    · rw [if_neg hc] at h ⊢
      exact ih (i + 1) acc h

/-- Whatever index the scan selects is an in-range candidate line. -/
theorem fuzzyScanAux_some (cs : List Char) (ls : List (List Char)) :
    ∀ (i : Nat) (acc : BestAcc) (j : Nat),
      (fuzzyScanAux cs ls i acc).best_idx = some j →
      acc.best_idx = some j ∨
        (i ≤ j ∧ j - i < ls.length ∧ isCandidate (ls.getD (j - i) []) = true) := by
  induction ls with
  | nil => intro i acc j h; exact Or.inl h
  | cons l ls ih =>
    intro i acc j h
    unfold fuzzyScanAux at h
    by_cases hc : isCandidate l
    · rw [if_pos hc] at h
      rcases ih (i + 1) _ j h with h' | ⟨h1, h2, h3⟩
      · by_cases hlt : acc.best_ratio < boostedRatioFor cs (cleanLine l)
        · rw [if_pos hlt] at h'
          have hj : j = i := by simpa using h'.symm
          subst hj
          refine Or.inr ⟨le_refl j, by simp, ?_⟩
          rw [Nat.sub_self]
          simpa using hc
        · rw [if_neg hlt] at h'
          exact Or.inl h'
      · refine Or.inr ⟨by omega, by simp only [List.length_cons]; omega, ?_⟩
        have he : j - i = (j - (i + 1)) + 1 := by omega
        rw [he]
        simpa using h3
    · rw [if_neg hc] at h
      rcases ih (i + 1) acc j h with h' | ⟨h1, h2, h3⟩
      · exact Or.inl h'
      · refine Or.inr ⟨by omega, by simp only [List.length_cons]; omega, ?_⟩
        have he : j - i = (j - (i + 1)) + 1 := by omega
        rw [he]
        simpa using h3

/-- A no-candidate file is never fuzzily matched. -/
theorem fuzzyScan_no_candidates (cs : List Char) (ls : List (List Char))
    (i : Nat) (acc : BestAcc) (h : ∀ l ∈ ls, isCandidate l = false) :
    fuzzyScanAux cs ls i acc = acc := by
  induction ls generalizing i acc with
  | nil => rfl
  | cons l ls ih =>
    unfold fuzzyScanAux
    rw [if_neg (by simp [h l (by simp)])]
    exact ih (i + 1) acc (fun l' hl' => h l' (by simp [hl']))

/-- Decomposition of a line accepted by `parseTaskPrefix`. -/
theorem parseTaskPrefix_spec (l : List Char) (tp : TaskPrefix)
    (h : parseTaskPrefix l = some tp) :
    l = tp.ws1 ++ '-' :: (tp.ws2 ++ '[' :: tp.statusChar :: ']' :: tp.rest) ∧
    (∀ c ∈ tp.ws1, isPySpace c = true) ∧ (∀ c ∈ tp.ws2, isPySpace c = true) ∧
    isStatusChar tp.statusChar = true := by
  unfold parseTaskPrefix at h
  split at h
  next r1 heq1 =>
    split at h
    next c rest heq2 =>
      split at h
      next hsc =>
        have htp : (⟨l.takeWhile isPySpace, r1.takeWhile isPySpace, c, rest⟩ :
            TaskPrefix) = tp := by
          injection h
        subst htp
        refine ⟨?_, fun x hx => List.mem_takeWhile_imp hx,
          fun x hx => List.mem_takeWhile_imp hx, hsc⟩
        have e1 : l.takeWhile isPySpace ++ l.dropWhile isPySpace = l :=
          List.takeWhile_append_dropWhile ..
        have e2 : r1.takeWhile isPySpace ++ r1.dropWhile isPySpace = r1 :=
          List.takeWhile_append_dropWhile ..
        rw [heq1] at e1
        rw [heq2] at e2
        conv_lhs => rw [← e1]
        dsimp only
        rw [e2]
      next => exact absurd h (by simp)
    next => exact absurd h (by simp)
  next => exact absurd h (by simp)

/-- Every line produced by `splitLines` is nonempty and contains a newline
only as its final character. -/
theorem splitLinesAux_proper (cs : List Char) :
    ∀ (cur : List Char), '\n' ∉ cur →
      ∀ l ∈ splitLinesAux cur cs, l ≠ [] ∧ '\n' ∉ l.dropLast := by
  induction cs with
  | nil =>
    intro cur hcur l hl
    unfold splitLinesAux at hl
    by_cases hc : cur = []
    · rw [if_pos (by simpa using hc)] at hl
      simp at hl
    · rw [if_neg (by simpa using hc)] at hl
      have hlc : l = cur.reverse := by simpa using hl
      subst hlc
      refine ⟨by simpa using hc, fun hmem => hcur ?_⟩
      have : '\n' ∈ cur.reverse := (List.dropLast_sublist _).mem hmem
      simpa using this
  | cons c cs ih =>
    intro cur hcur l hl
    unfold splitLinesAux at hl
    by_cases hc : c = '\n'
    · rw [if_pos hc] at hl
      rcases List.mem_cons.mp hl with hl | hl
      · subst hl
        refine ⟨by simp, ?_⟩
        rw [List.dropLast_concat]
        intro hmem
        exact hcur (by simpa using hmem)
      · exact ih [] (by simp) l hl
    · rw [if_neg hc] at hl
      refine ih (c :: cur) ?_ l hl
      intro hmem
      rcases List.mem_cons.mp hmem with h | h
      · exact hc h.symm
      · exact hcur h

/-- Newline-only-at-end transfers to suffixes. -/
theorem nlOnlyAtEnd_suffix (l l' : List Char) (hs : l' <:+ l)
    (h : '\n' ∉ l.dropLast) : '\n' ∉ l'.dropLast := by
  obtain ⟨t, rfl⟩ := hs
  by_cases hl' : l' = []
  · subst hl'; simp
  · intro hmem
    apply h
    rw [List.dropLast_append_of_ne_nil _ hl']
    exact List.mem_append.mpr (Or.inr hmem)

/-- `pulGo` succeeds on any remainder whose newlines are terminal. -/
theorem pulGo_total (rest : List Char) :
    ∀ acc, '\n' ∉ rest.dropLast → (pulGo acc rest).isSome := by
  induction rest with
  | nil =>
    intro acc _
    unfold pulGo
    simp [tryMetaAt, restAllWs]
  | cons c cs ih =>
    intro acc h
    unfold pulGo
    cases htm : tryMetaAt (c :: cs) with
    | some p => simp
    | none =>
      simp only
      by_cases hws : restAllWs (c :: cs)
      · rw [if_pos hws]
        simp
      · rw [if_neg hws]
        by_cases hnl : c = '\n'
        · exfalso
          subst hnl
          rcases List.eq_nil_or_concat cs with hcs | ⟨cs', c', hcat⟩
          · subst hcs
            exact hws (by simp [restAllWs, isPySpace])
          · rw [List.concat_eq_append] at hcat
            subst hcat
            apply h
            have hd : ('\n' :: (cs' ++ [c'])).dropLast = '\n' :: cs' := by
              rw [show '\n' :: (cs' ++ [c']) = ('\n' :: cs') ++ [c'] by simp,
                List.dropLast_concat]
            rw [hd]
            simp
        · rw [if_neg hnl]
          apply ih
          apply nlOnlyAtEnd_suffix (c :: cs) cs ⟨[c], rfl⟩ h

/-- `parseUpdateLine` succeeds on every candidate line whose newlines are
terminal (in particular, on every candidate line of a real file): the
`return False` fallback of `update_task_metadata_in_file`'s update phase is
unreachable. -/
theorem parseUpdateLine_total (l : List Char) (hc : isCandidate l = true)
    (hnl : '\n' ∉ l.dropLast) : (parseUpdateLine l).isSome := by
  unfold isCandidate at hc
  cases htp : parseTaskPrefix l with
  | none => rw [htp] at hc; simp at hc
  | some tp =>
    unfold parseUpdateLine
    rw [htp]
    obtain ⟨hdecomp, _, _, _⟩ := parseTaskPrefix_spec l tp htp
    have hsuf : tp.rest <:+ l := by
      refine ⟨tp.ws1 ++ '-' :: (tp.ws2 ++ '[' :: tp.statusChar :: ']' :: []), ?_⟩
      rw [hdecomp]
      simp
    have h1 : '\n' ∉ tp.rest.dropLast := nlOnlyAtEnd_suffix l tp.rest hsuf hnl
    have h2 : '\n' ∉ (tp.rest.dropWhile isPySpace).dropLast :=
      nlOnlyAtEnd_suffix tp.rest _ (List.dropWhile_suffix _) h1
    have h3 := pulGo_total (tp.rest.dropWhile isPySpace) [] h2
    dsimp only
    cases hgo : pulGo [] (tp.rest.dropWhile isPySpace) with
    | none => rw [hgo] at h3; simp at h3
    | some g =>
      rcases g with ⟨b, c, d⟩
      simp

theorem findClose_some_lt (l : List Char) (k : Nat) (h : findClose l = some k) :
    k < l.length := by
  induction l generalizing k with
  | nil => simp [findClose] at h
  | cons c cs ih =>
    unfold findClose at h
    by_cases hc : c = ']'
    · rw [if_pos hc] at h
      have : k = 0 := by simpa using h.symm
      subst this
      simp
    · rw [if_neg hc] at h
      by_cases hn : c = '\n'
      · rw [if_pos hn] at h; simp at h
      · rw [if_neg hn] at h
        cases hfc : findClose cs with
        | none => rw [hfc] at h; simp at h
        | some k' =>
          rw [hfc] at h
          have : k = k' + 1 := by simpa using h.symm
          subst this
          have := ih k' hfc
          simp only [List.length_cons]
          omega

/-- Bracket removal never produces a new reachable closing bracket. -/
theorem findClose_removeBracketsAux (fuel : Nat) :
    ∀ (l : List Char), findClose l = none →
      findClose (removeBracketsAux fuel l) = none := by
  induction fuel with
  | zero => intro l h; exact h
  | succ fuel ih =>
    intro l h
    match l with
    | [] => simpa [removeBracketsAux] using h
    | c :: cs =>
      unfold findClose at h
      by_cases hc : c = ']'
      · rw [if_pos hc] at h; simp at h
      · rw [if_neg hc] at h
        by_cases hn : c = '\n'
        · rw [if_pos hn] at h
          unfold removeBracketsAux
          rw [if_neg (by rw [hn]; decide)]
          unfold findClose
          rw [if_neg hc, if_pos hn]
        · rw [if_neg hn] at h
          have hcs : findClose cs = none := by
            cases hfc : findClose cs with
            | none => rfl
            | some k => rw [hfc] at h; simp at h
          unfold removeBracketsAux
          by_cases hb : c = '['
          · rw [if_pos hb, hcs]
            unfold findClose
            rw [if_neg hc, if_neg hn]
            rw [ih cs hcs]
            rfl
          · rw [if_neg hb]
            unfold findClose
            rw [if_neg hc, if_neg hn]
            rw [ih cs hcs]
            rfl

/-- The output of bracket removal contains no `'[' c ']'` triple with
`c ≠ '\n'`: every closed bracket span was removed. -/
theorem removeBracketsAux_no_triple (fuel : Nat) :
    ∀ (l : List Char), l.length ≤ fuel →
      ∀ pre c post, removeBracketsAux fuel l = pre ++ '[' :: c :: ']' :: post →
        c = '\n' := by
  induction fuel with
  | zero =>
    intro l hf pre c post h
    have : l = [] := List.eq_nil_of_length_eq_zero (by omega)
    subst this
    simp [removeBracketsAux] at h
  | succ fuel ih =>
    intro l hf pre c post h
    match l with
    | [] =>
      simp only [removeBracketsAux] at h
      exact absurd h.symm (by simp)
    | c0 :: cs =>
      unfold removeBracketsAux at h
      by_cases hb : c0 = '['
      · rw [if_pos hb] at h
        cases hfc : findClose cs with
        | some k =>
          rw [hfc] at h
          refine ih (cs.drop (k + 1)) ?_ pre c post h
          have := List.length_drop (k + 1) cs
          simp only [List.length_cons] at hf
          omega
        | none =>
          rw [hfc] at h
          match pre, h with
          | [], h =>
            have hout : removeBracketsAux fuel cs = c :: ']' :: post := by
              simp only [List.nil_append, List.cons.injEq] at h
              exact h.2
            by_cases hcn : c = '\n'
            · exact hcn
            · exfalso
              have hnone := findClose_removeBracketsAux fuel cs hfc
              rw [hout] at hnone
              unfold findClose at hnone
              by_cases hcc : c = ']'
              · rw [if_pos hcc] at hnone; simp at hnone
              · rw [if_neg hcc, if_neg hcn] at hnone
                unfold findClose at hnone
                rw [if_pos rfl] at hnone
                simp at hnone
          | c1 :: pre', h =>
            have htail : removeBracketsAux fuel cs = pre' ++ '[' :: c :: ']' :: post := by
              simp only [List.cons_append, List.cons.injEq] at h
              exact h.2
            refine ih cs (by simp only [List.length_cons] at hf; omega) pre' c post htail
      · rw [if_neg hb] at h
        match pre, h with
        | [], h =>
          exfalso
          simp only [List.nil_append, List.cons.injEq] at h
          exact hb h.1
        | c1 :: pre', h =>
          have htail : removeBracketsAux fuel cs = pre' ++ '[' :: c :: ']' :: post := by
            simp only [List.cons_append, List.cons.injEq] at h
            exact h.2
          exact ih cs (by simp only [List.length_cons] at hf; omega) pre' c post htail

/-- After global bracket removal, no line can still match the checkmark
prefix (its status bracket is gone), so the checkmark strip of the
candidate-line normalization is dead code. -/
theorem parseTaskPrefix_removeBrackets (a : List Char) :
    parseTaskPrefix (removeBrackets a) = none := by
  cases htp : parseTaskPrefix (removeBrackets a) with
  | none => rfl
  | some tp =>
    exfalso
    obtain ⟨hdecomp, _, _, hsc⟩ := parseTaskPrefix_spec _ tp htp
    have htriple : removeBracketsAux a.length a =
        (tp.ws1 ++ '-' :: tp.ws2) ++ '[' :: tp.statusChar :: ']' :: tp.rest := by
      show removeBrackets a = _
      rw [hdecomp]
      simp
    have hnl := removeBracketsAux_no_triple a.length a (le_refl _)
      (tp.ws1 ++ '-' :: tp.ws2) tp.statusChar tp.rest htriple
    rw [hnl] at hsc
    exact absurd hsc (by decide)

/-- The checkmark strip after bracket removal is the identity. -/
theorem removeCheckmark_removeBrackets (a : List Char) :
    removeCheckmark (removeBrackets a) = removeBrackets a := by
  unfold removeCheckmark
  rw [parseTaskPrefix_removeBrackets]

theorem getD_mem_of_lt (ls : List (List Char)) (i : Nat) (h : i < ls.length) :
    ls.getD i [] ∈ ls := by
  rw [List.getD_eq_getElem ls [] h]
  exact List.getElem_mem h

/-- The `return False` outcomes of `update_task_status_in_file`: false holds
exactly below the 0.6 threshold, and then the file is untouched. -/
theorem update_status_false_iff (content q s : String) :
    ((update_task_status_in_file content q s).1 = false ↔
      (fuzzyScan (cleanSearch q.toList) (splitLines content.toList)).best_ratio <
        mkRat 3 5) ∧
    ((update_task_status_in_file content q s).1 = false →
      update_task_status_in_file content q s = (false, content)) := by
  unfold update_task_status_in_file
  dsimp only
  by_cases hlt : (fuzzyScan (cleanSearch q.toList)
      (splitLines content.toList)).best_ratio < mkRat 3 5
  · rw [if_pos hlt]
    exact ⟨⟨fun _ => hlt, fun _ => rfl⟩, fun _ => rfl⟩
  · rw [if_neg hlt]
    cases hidx : (fuzzyScan (cleanSearch q.toList)
        (splitLines content.toList)).best_idx with
    | none =>
      exfalso
      have hres := fuzzyScanAux_none (cleanSearch q.toList)
        (splitLines content.toList) 0 ⟨0, none⟩ hidx
      apply hlt
      show (fuzzyScanAux (cleanSearch q.toList) (splitLines content.toList) 0
        ⟨0, none⟩).best_ratio < mkRat 3 5
      rw [hres]
      decide
    | some i =>
      dsimp only
      constructor
      · constructor
        · intro h
          split at h <;> simp at h
        · intro h
          exact absurd h hlt
      · intro h
        split at h <;> simp at h

theorem fst_ite_true (c : Prop) [Decidable c] (x y : String) :
    ((if c then ((true : Bool), x) else (true, y)) : Bool × String).1 = true := by
  split <;> rfl

/-- The `return False` outcomes of `update_task_metadata_in_file`: the
update-phase regex fallback is unreachable, so false holds exactly below the
0.6 threshold, and then the file is untouched. -/
theorem update_metadata_false_iff (content q : String)
    (md : List (String × String)) :
    ((update_task_metadata_in_file content q md).1 = false ↔
      (fuzzyScan (cleanSearch q.toList) (splitLines content.toList)).best_ratio <
        mkRat 3 5) ∧
    ((update_task_metadata_in_file content q md).1 = false →
      update_task_metadata_in_file content q md = (false, content)) := by
  unfold update_task_metadata_in_file
  dsimp only
  by_cases hlt : (fuzzyScan (cleanSearch q.toList)
      (splitLines content.toList)).best_ratio < mkRat 3 5
  · rw [if_pos hlt]
    exact ⟨⟨fun _ => hlt, fun _ => rfl⟩, fun _ => rfl⟩
  · rw [if_neg hlt]
    cases hidx : (fuzzyScan (cleanSearch q.toList)
        (splitLines content.toList)).best_idx with
    | none =>
      exfalso
      have hres := fuzzyScanAux_none (cleanSearch q.toList)
        (splitLines content.toList) 0 ⟨0, none⟩ hidx
      apply hlt
      show (fuzzyScanAux (cleanSearch q.toList) (splitLines content.toList) 0
        ⟨0, none⟩).best_ratio < mkRat 3 5
      rw [hres]
      decide
    | some i =>
      have hsome := fuzzyScanAux_some (cleanSearch q.toList)
        (splitLines content.toList) 0 ⟨0, none⟩ i hidx
      rcases hsome with h' | ⟨_, hlen, hcand⟩
      · simp at h'
      · dsimp only
        rw [Nat.sub_zero] at hlen hcand
        have hmem : (splitLines content.toList).getD i [] ∈
            splitLines content.toList := getD_mem_of_lt _ i hlen
        obtain ⟨hne, hnl⟩ := splitLinesAux_proper content.toList [] (by simp)
          _ hmem
        have hpul := parseUpdateLine_total _ hcand hnl
        cases hpl : parseUpdateLine ((splitLines content.toList).getD i []) with
        | none => rw [hpl] at hpul; simp at hpul
        | some g =>
          dsimp only
          constructor
          · constructor
            · intro h
              rw [fst_ite_true] at h
              simp at h
            · intro h
              exact absurd h hlt
          · intro h
            rw [fst_ite_true] at h
            simp at h

/-- C6 (amended): `updateStatus` and `updateMetadata` normalize the query by
stripping bracketed spans, leading whitespace/bullet/asterisk marks, quotes,
surrounding whitespace and case; each candidate task line is normalized by
stripping bracketed spans, quotes, surrounding whitespace and case — its
leading bullet survives, because the checkmark-prefix strip can never match
once the brackets are removed; each candidate is scored with a
sequence-similarity ratio in [0, 1], boosted to at least 0.85 whenever one
normalized string is a substring of the other; the highest-scoring line is
selected, and both operations fail (returning false with the file unchanged)
exactly when the best score is below 0.6. -/
theorem fuzzy_matching_amended (content q s : String)
    (md : List (String × String)) (a b : List Char) :
    (0 ≤ ratioValue a b ∧ ratioValue a b ≤ 1) ∧
    ((a <:+: b ∨ b <:+: a) → mkRat 85 100 ≤ boostedRatioFor a b) ∧
    (removeCheckmark (removeBrackets a) = removeBrackets a) ∧
    (cleanLine a = lowerAll (stripWs (removeQuotes (removeBrackets a)))) ∧
    ((update_task_status_in_file content q s).1 = false ↔
      (fuzzyScan (cleanSearch q.toList) (splitLines content.toList)).best_ratio <
        mkRat 3 5) ∧
    ((update_task_status_in_file content q s).1 = false →
      update_task_status_in_file content q s = (false, content)) ∧
    ((update_task_metadata_in_file content q md).1 = false ↔
      (fuzzyScan (cleanSearch q.toList) (splitLines content.toList)).best_ratio <
        mkRat 3 5) ∧
    ((update_task_metadata_in_file content q md).1 = false →
      update_task_metadata_in_file content q md = (false, content)) := by
  refine ⟨ratioValue_mem_unit a b, ?_, removeCheckmark_removeBrackets a, ?_,
    (update_status_false_iff content q s).1,
    (update_status_false_iff content q s).2,
    (update_metadata_false_iff content q md).1,
    (update_metadata_false_iff content q md).2⟩
  · intro hinf
    unfold boostedRatioFor
    rw [if_pos hinf]
    exact le_max_right _ _
  · unfold cleanLine
    rw [removeCheckmark_removeBrackets]

/-- Witness for C6 (amended) at a concrete input: the single-candidate file
from the counterexample is rejected below threshold and left unchanged. -/
theorem fuzzy_matching_amended_witness :
    update_task_status_in_file "- [ ] beta\n"
        "alpha beta gamma delta epsilon zeta eta theta" "[x]" =
      (false, "- [ ] beta\n") := by
  have h := (fuzzy_matching_amended "- [ ] beta\n"
    "alpha beta gamma delta epsilon zeta eta theta" "[x]" [] [] []).2.2.2.2.2.1
  exact h (by decide)

/-- C10: the fuzzy update operations only consider lines whose bracketed
status character is `' '`, `'x'`, `'/'` or `'!'`; a file whose task lines all
fall outside that class (for example Defect lines `- [?] ...`) is never
matched, so both `updateStatus` and `updateMetadata` return not-found with the
file unchanged — even for a query equal to such a line's description — and a
`- [?] ...` line is indeed not a candidate. -/
theorem defect_status_never_matched (content q s : String)
    (hnc : ∀ l ∈ splitLines content.toList, isCandidate l = false) :
    update_task_status_in_file content q s = (false, content) ∧
    (∀ md, update_task_metadata_in_file content q md = (false, content)) ∧
    isCandidate ("- [?] Fix crash\n".toList) = false := by
  have hscan : fuzzyScan (cleanSearch q.toList) (splitLines content.toList) =
      ⟨0, none⟩ :=
    fuzzyScan_no_candidates _ _ 0 ⟨0, none⟩ hnc
  refine ⟨?_, fun md => ?_, by decide⟩
  · unfold update_task_status_in_file
    dsimp only
    rw [hscan]
    rw [if_pos (show (⟨0, none⟩ : BestAcc).best_ratio < mkRat 3 5 by decide)]
  · unfold update_task_metadata_in_file
    dsimp only
    rw [hscan]
    rw [if_pos (show (⟨0, none⟩ : BestAcc).best_ratio < mkRat 3 5 by decide)]

/-- Witness for C10: a ledger whose only task line is the Defect line
`- [?] Fix crash` is left unchanged even when the query is exactly the
description `Fix crash`. -/
theorem defect_status_never_matched_witness :
    update_task_status_in_file "- [?] Fix crash\n" "Fix crash" "[x]" =
      (false, "- [?] Fix crash\n") :=
  (defect_status_never_matched "- [?] Fix crash\n" "Fix crash" "[x]"
    (by decide)).1

/-- C5 (code-bug evidence): `update_sprint_task_status` with status `"[!]"`
and a non-empty blocker reason rewrites the status character but never appends
the `[BLOCKED: reason]` token: its append pass searches each line for the
literal `f"- [{status}]"`, which is the malformed `"- [[!]]"` (brackets
doubled) and cannot occur on a well-formed task line. -/
theorem blocked_reason_never_appended :
    update_sprint_task_status "- [ ] Add login API\n" "Add login API" "[!]"
        (some "DB down") =
      (.success, "- [!] Add login API\n") ∧
    listContains "- [!] Add login API\n".toList "[BLOCKED:".toList = false ∧
    listContains "- [!] Add login API\n".toList "- [[!]]".toList = false := by
  refine ⟨by decide, by decide, by decide⟩

/-- Normalization the claim describes for candidate lines (C6 / spec §4.1):
strip bracketed metadata, leading bullet/status markers, quotes, and case —
the pipeline the code in fact only applies to the query. Modelled from the
spec for comparison with the implemented `cleanLine`. -/
def cleanLineClaimed (l : List Char) : List Char :=
  lowerAll (stripWs (removeQuotes (stripQueryPrefixMarks (removeBrackets l))))

/-- C6 counterexample: on the single-task ledger `- [ ] beta` and the query
`alpha beta gamma delta epsilon zeta eta theta`, the normalization described
by the claim yields `beta`, a substring of the normalized query, so the
claimed procedure boosts the score to at least 0.85 and accepts the match; the
implemented normalization leaves the bullet (`-  beta`), the score stays below
0.6, and `updateStatus` returns not-found with the file unchanged. -/
theorem fuzzy_line_normalization_counterexample :
    cleanLineClaimed "- [ ] beta\n".toList <:+:
      cleanSearch "alpha beta gamma delta epsilon zeta eta theta".toList ∧
    mkRat 85 100 ≤ boostedRatioFor
      (cleanSearch "alpha beta gamma delta epsilon zeta eta theta".toList)
      (cleanLineClaimed "- [ ] beta\n".toList) ∧
    boostedRatioFor
        (cleanSearch "alpha beta gamma delta epsilon zeta eta theta".toList)
        (cleanLine "- [ ] beta\n".toList) < mkRat 3 5 ∧
    update_task_status_in_file "- [ ] beta\n"
        "alpha beta gamma delta epsilon zeta eta theta" "[x]" =
      (false, "- [ ] beta\n") := by
  refine ⟨by decide, by decide, by decide, by decide⟩

/-- C7 counterexample: `updateStatus(d, s)` is not idempotent for every status
`s`. With `s = "[?]"`, the first call rewrites the matched line's status to
`?`, which removes it from the candidate class `[x /!]`; the second call then
matches the next-most-similar line and rewrites it too, so the file content
after the second call differs from the content after the first. -/
theorem updateStatus_not_idempotent_for_defect_status :
    update_task_status_in_file "- [ ] deploy app v1\n- [ ] deploy app v2\n"
        "deploy app v1" "[?]" =
      (true, "- [?] deploy app v1\n- [ ] deploy app v2\n") ∧
    update_task_status_in_file "- [?] deploy app v1\n- [ ] deploy app v2\n"
        "deploy app v1" "[?]" =
      (true, "- [?] deploy app v1\n- [?] deploy app v2\n") ∧
    ("- [?] deploy app v1\n- [ ] deploy app v2\n" : String) ≠
      "- [?] deploy app v1\n- [?] deploy app v2\n" := by
  refine ⟨by decide, by decide, by decide⟩

/- ### Idempotence of the status update for the four legal statuses (C7) -/

/-- `dropWhile` jumps over a run of satisfying elements up to the first
non-satisfying one. -/
theorem dropWhile_run {α} (p : α → Bool) (w : List α) (x : α) (r : List α)
    (hw : ∀ c ∈ w, p c = true) (hx : p x = false) :
    (w ++ x :: r).dropWhile p = x :: r := by
  induction w with
  | nil => simp [List.dropWhile_cons, hx]
  | cons a w ih =>
    have ha : p a = true := hw a (by simp)
    simp only [List.cons_append, List.dropWhile_cons, ha, if_true]
    exact ih (fun c hc => hw c (by simp [hc]))

/-- `takeWhile` collects exactly a run of satisfying elements up to the first
non-satisfying one. -/
theorem takeWhile_run {α} (p : α → Bool) (w : List α) (x : α) (r : List α)
    (hw : ∀ c ∈ w, p c = true) (hx : p x = false) :
    (w ++ x :: r).takeWhile p = w := by
  induction w with
  | nil => simp [List.takeWhile_cons, hx]
  | cons a w ih =>
    have ha : p a = true := hw a (by simp)
    simp only [List.cons_append, List.takeWhile_cons, ha, if_true]
    rw [ih (fun c hc => hw c (by simp [hc]))]

/-- The status characters are neither `']'` nor `'\n'` nor `'['`. -/
theorem isStatusChar_ne (c : Char) (h : isStatusChar c = true) :
    c ≠ ']' ∧ c ≠ '\n' ∧ c ≠ '[' := by
  have h4 : ((c = 'x' ∨ c = ' ') ∨ c = '/') ∨ c = '!' := by
    simpa [isStatusChar] using h
  rcases h4 with ((rfl | rfl) | rfl) | rfl <;>
    exact ⟨by decide, by decide, by decide⟩

/-- `statusSub` on a decomposed task line rewrites exactly the status
character. -/
theorem statusSub_decomp (repl W1 W2 rest : List Char) (c : Char)
    (h1 : ∀ x ∈ W1, isPySpace x = true) (h2 : ∀ x ∈ W2, isPySpace x = true)
    (hc : isStatusChar c = true) :
    statusSub repl (W1 ++ '-' :: (W2 ++ '[' :: c :: ']' :: rest)) =
      W1 ++ '-' :: (W2 ++ '[' :: (repl ++ ']' :: rest)) := by
  induction W1 with
  | nil =>
    show statusSub repl ('-' :: (W2 ++ '[' :: c :: ']' :: rest)) = _
    unfold statusSub
    rw [if_pos rfl]
    rw [dropWhile_run isPySpace W2 '[' _ h2 (by decide)]
    split
    next d rest' heq =>
      injection heq with h1' heq2
      injection heq2 with h2' heq3
      injection heq3 with h3' heq4
      subst h2'
      subst heq4
      rw [if_pos hc]
      rw [takeWhile_run isPySpace W2 '[' _ h2 (by decide)]
      simp
    next hne => exact absurd rfl (hne c rest)
  | cons w W1' ih =>
    have hw : isPySpace w = true := h1 w (by simp)
    have hwne : w ≠ '-' := by
      intro he; subst he; exact absurd hw (by decide)
    show statusSub repl (w :: (W1' ++ '-' :: (W2 ++ '[' :: c :: ']' :: rest))) = _
    unfold statusSub
    rw [if_neg hwne]
    rw [ih (fun x hx => h1 x (by simp [hx]))]
    simp

/-- Building a task line from its decomposition parses back to exactly those
components. -/
theorem parseTaskPrefix_build (W1 W2 rest : List Char) (c : Char)
    (h1 : ∀ x ∈ W1, isPySpace x = true) (h2 : ∀ x ∈ W2, isPySpace x = true)
    (hc : isStatusChar c = true) :
    parseTaskPrefix (W1 ++ '-' :: (W2 ++ '[' :: c :: ']' :: rest)) =
      some ⟨W1, W2, c, rest⟩ := by
  unfold parseTaskPrefix
  rw [dropWhile_run isPySpace W1 '-' _ h1 (by decide)]
  split
  next r1 heq =>
    injection heq with h1' heq2
    subst heq2
    rw [dropWhile_run isPySpace W2 '[' _ h2 (by decide)]
    split
    next d rest' heq' =>
      injection heq' with h2' heq3'
      injection heq3' with h3' heq4'
      injection heq4' with h4' heq5'
      subst h3'
      subst heq5'
      rw [if_pos hc]
      rw [takeWhile_run isPySpace W1 '-' _ h1 (by decide),
        takeWhile_run isPySpace W2 '[' _ h2 (by decide)]
    next hne => exact absurd rfl (hne c rest)
  next hne => exact absurd rfl (hne _)

/-- `removeBracketsAux` copies a bracket-free run verbatim, spending one unit
of fuel per element. -/
theorem removeBracketsAux_copy (pre : List Char)
    (hpre : ∀ x ∈ pre, x ≠ '[') :
    ∀ (fuel : Nat) (rest : List Char), pre.length ≤ fuel →
      removeBracketsAux fuel (pre ++ rest) =
        pre ++ removeBracketsAux (fuel - pre.length) rest := by
  induction pre with
  | nil => intro fuel rest _; simp
  | cons a pre ih =>
    intro fuel rest h
    match fuel with
    | f + 1 =>
      show removeBracketsAux (f + 1) (a :: (pre ++ rest)) = _
      conv_lhs => unfold removeBracketsAux
      rw [if_neg (hpre a (by simp))]
      rw [ih (fun x hx => hpre x (by simp [hx])) f rest
        (by simpa using h)]
      have he : f + 1 - (a :: pre).length = f - pre.length := by
        simp only [List.length_cons]; omega
      rw [he]
      simp

/-- `removeBrackets` of a decomposed task line does not depend on the status
character (the bracketed status span is removed either way). -/
theorem removeBrackets_statusChange (W1 W2 rest : List Char) (c c' : Char)
    (h1 : ∀ x ∈ W1, isPySpace x = true) (h2 : ∀ x ∈ W2, isPySpace x = true)
    (hc : isStatusChar c = true) (hc' : isStatusChar c' = true) :
    removeBrackets (W1 ++ '-' :: (W2 ++ '[' :: c :: ']' :: rest)) =
      removeBrackets (W1 ++ '-' :: (W2 ++ '[' :: c' :: ']' :: rest)) := by
  have hws : ∀ (W : List Char), (∀ x ∈ W, isPySpace x = true) →
      ∀ x ∈ W, x ≠ '[' := by
    intro W hW x hx he
    subst he
    exact absurd (hW _ hx) (by decide)
  have hpre : ∀ x ∈ W1 ++ '-' :: W2, x ≠ '[' := by
    intro x hx
    rcases List.mem_append.mp hx with hx | hx
    · exact hws W1 h1 x hx
    · rcases List.mem_cons.mp hx with rfl | hx
      · decide
      · exact hws W2 h2 x hx
  have hstep : ∀ (d : Char), isStatusChar d = true → ∀ n : Nat,
      removeBracketsAux (n + 1) ('[' :: d :: ']' :: rest) =
        removeBracketsAux n rest := by
    intro d hd n
    obtain ⟨hd1, hd2, -⟩ := isStatusChar_ne d hd
    have hfc : findClose (d :: ']' :: rest) = some 1 := by
      unfold findClose
      rw [if_neg hd1, if_neg hd2]
      rfl
    conv_lhs => unfold removeBracketsAux
    rw [if_pos rfl, hfc]
    rfl
  have hassoc : ∀ (d : Char),
      W1 ++ '-' :: (W2 ++ '[' :: d :: ']' :: rest) =
        (W1 ++ '-' :: W2) ++ '[' :: d :: ']' :: rest := by
    intro d; simp
  unfold removeBrackets
  rw [hassoc c, hassoc c']
  have hlen : ∀ (d : Char),
      ((W1 ++ '-' :: W2) ++ '[' :: d :: ']' :: rest).length =
        (W1 ++ '-' :: W2).length + (rest.length + 3) := by
    intro d; simp; omega
  rw [hlen c, hlen c']
  rw [removeBracketsAux_copy _ hpre _ _ (by omega),
    removeBracketsAux_copy _ hpre _ _ (by omega)]
  have he : (W1 ++ '-' :: W2).length + (rest.length + 3) -
      (W1 ++ '-' :: W2).length = rest.length + 2 + 1 := by omega
  rw [he]
  rw [hstep c hc, hstep c' hc']

/-- `cleanLine` of a decomposed task line does not depend on the status
character. -/
theorem cleanLine_statusChange (W1 W2 rest : List Char) (c c' : Char)
    (h1 : ∀ x ∈ W1, isPySpace x = true) (h2 : ∀ x ∈ W2, isPySpace x = true)
    (hc : isStatusChar c = true) (hc' : isStatusChar c' = true) :
    cleanLine (W1 ++ '-' :: (W2 ++ '[' :: c :: ']' :: rest)) =
      cleanLine (W1 ++ '-' :: (W2 ++ '[' :: c' :: ']' :: rest)) := by
  unfold cleanLine
  rw [removeBrackets_statusChange W1 W2 rest c c' h1 h2 hc hc']

/-- Shape invariant of a `readlines` result: every line is nonempty with a
newline only at its end, and every non-final line ends with a newline. -/
def LinesOK : List (List Char) → Prop
  | [] => True
  | [l] => l ≠ [] ∧ '\n' ∉ l.dropLast
  | l :: l₂ :: ls =>
    l ≠ [] ∧ '\n' ∉ l.dropLast ∧ l.getLast? = some '\n' ∧ LinesOK (l₂ :: ls)

theorem LinesOK_cons (l : List Char) (ls : List (List Char)) (hls : ls ≠ []) :
    LinesOK (l :: ls) ↔
      (l ≠ [] ∧ '\n' ∉ l.dropLast ∧ l.getLast? = some '\n' ∧ LinesOK ls) := by
  cases ls with
  | nil => exact absurd rfl hls
  | cons a as => exact Iff.rfl

/-- `splitLinesAux` always produces a `LinesOK` list. -/
theorem splitLinesAux_linesOK (cs : List Char) :
    ∀ (cur : List Char), '\n' ∉ cur → LinesOK (splitLinesAux cur cs) := by
  induction cs with
  | nil =>
    intro cur hcur
    unfold splitLinesAux
    by_cases hc : cur = []
    · rw [if_pos (by simpa using hc)]
      trivial
    · rw [if_neg (by simpa using hc)]
      refine ⟨by simpa using hc, fun hmem => hcur ?_⟩
      have : '\n' ∈ cur.reverse := (List.dropLast_sublist _).mem hmem
      simpa using this
  | cons c cs ih =>
    intro cur hcur
    unfold splitLinesAux
    by_cases hc : c = '\n'
    · rw [if_pos hc]
      have hhead1 : (cur.reverse ++ ['\n'] : List Char) ≠ [] := by simp
      have hhead2 : '\n' ∉ (cur.reverse ++ ['\n']).dropLast := by
        rw [List.dropLast_concat]
        intro hmem
        exact hcur (by simpa using hmem)
      cases htail : splitLinesAux [] cs with
      | nil => exact ⟨hhead1, hhead2⟩
      | cons t ts =>
        refine (LinesOK_cons _ _ (by simp)).mpr
          ⟨hhead1, hhead2, List.getLast?_concat _, ?_⟩
        rw [← htail]
        exact ih [] (by simp)
    · rw [if_neg hc]
      refine ih (c :: cur) ?_
      intro hmem
      rcases List.mem_cons.mp hmem with h | h
      · exact hc h.symm
      · exact hcur h

/-- Splitting a buffer that ends in the first newline. -/
theorem splitLinesAux_terminated (b : List Char) :
    ∀ (cur rest : List Char), '\n' ∉ b →
      splitLinesAux cur (b ++ '\n' :: rest) =
        (cur.reverse ++ (b ++ ['\n'])) :: splitLinesAux [] rest := by
  induction b with
  | nil =>
    intro cur rest _
    show splitLinesAux cur ('\n' :: rest) = _
    conv_lhs => unfold splitLinesAux
    rw [if_pos rfl]
    simp
  | cons x b ih =>
    intro cur rest hnb
    have hx : x ≠ '\n' := fun h => hnb (by simp [h])
    show splitLinesAux cur (x :: (b ++ '\n' :: rest)) = _
    conv_lhs => unfold splitLinesAux
    rw [if_neg hx]
    rw [ih (x :: cur) rest (fun hm => hnb (by simp [hm]))]
    simp

/-- Splitting a nonempty newline-free buffer. -/
theorem splitLinesAux_unterminated (b : List Char) :
    ∀ (cur : List Char), '\n' ∉ b → b ≠ [] →
      splitLinesAux cur b = [cur.reverse ++ b] := by
  induction b with
  | nil => intro cur _ hne; exact absurd rfl hne
  | cons x b ih =>
    intro cur hnb _
    have hx : x ≠ '\n' := fun h => hnb (by simp [h])
    show splitLinesAux cur (x :: b) = _
    unfold splitLinesAux
    rw [if_neg hx]
    cases b with
    | nil =>
      show splitLinesAux (x :: cur) [] = _
      unfold splitLinesAux
      rw [if_neg (by simp)]
      simp
    | cons y b' =>
      rw [ih (x :: cur) (fun hm => hnb (by simp [hm])) (by simp)]
      simp

/-- `readlines` is a right inverse of `writelines` on `LinesOK` lists. -/
theorem splitLines_joinLines : ∀ (ls : List (List Char)), LinesOK ls →
    splitLines (joinLines ls) = ls := by
  intro ls
  induction ls with
  | nil => intro _; rfl
  | cons l ls ih =>
    intro h
    cases ls with
    | nil =>
      obtain ⟨hne, hnl⟩ := h
      show splitLines (joinLines [l]) = [l]
      have hj : joinLines [l] = l := by
        unfold joinLines
        simp
      rw [hj]
      by_cases hend : l.getLast? = some '\n'
      · have hlast : l.getLast hne = '\n' := by
          have := List.getLast?_eq_getLast l hne
          rw [hend] at this
          exact (Option.some_injective _ this).symm
        have hdecomp : l.dropLast ++ ['\n'] = l := by
          conv_rhs => rw [← List.dropLast_append_getLast hne]
          rw [hlast]
        show splitLinesAux [] l = [l]
        rw [← hdecomp]
        rw [show (l.dropLast ++ ['\n'] : List Char) =
          l.dropLast ++ '\n' :: [] by simp]
        rw [splitLinesAux_terminated l.dropLast [] [] hnl]
        rw [show splitLinesAux ([] : List Char) [] = [] from rfl]
        simp
      · have hnall : '\n' ∉ l := by
          intro hm
          conv at hm => rw [← List.dropLast_append_getLast hne]
          rcases List.mem_append.mp hm with hm | hm
          · exact hnl hm
          · apply hend
            rw [List.getLast?_eq_getLast l hne]
            have h5 : '\n' = l.getLast hne := by simpa using hm
            rw [← h5]
        show splitLinesAux [] l = [l]
        rw [splitLinesAux_unterminated l [] hnall hne]
        simp
    | cons l₂ ls₂ =>
      obtain ⟨hne, hnl, hlast, htail⟩ := h
      have hlast' : l.getLast hne = '\n' := by
        have := List.getLast?_eq_getLast l hne
        rw [hlast] at this
        exact (Option.some_injective _ this).symm
      have hdecomp : l.dropLast ++ ['\n'] = l := by
        conv_rhs => rw [← List.dropLast_append_getLast hne]
        rw [hlast']
      show splitLines (joinLines (l :: l₂ :: ls₂)) = _
      have hj : joinLines (l :: l₂ :: ls₂) =
          l.dropLast ++ '\n' :: joinLines (l₂ :: ls₂) := by
        unfold joinLines
        rw [List.flatten_cons, ← hdecomp]
        simp
      rw [hj]
      show splitLinesAux [] (l.dropLast ++ '\n' :: joinLines (l₂ :: ls₂)) = _
      rw [splitLinesAux_terminated l.dropLast [] _ hnl]
      rw [show ([].reverse ++ (l.dropLast ++ ['\n']) : List Char) = l by
        simp [hdecomp]]
      have := ih htail
      unfold splitLines at this
      rw [this]

/-- `getD` after `set`. -/
theorem getD_set (ls : List (List Char)) : ∀ (i k : Nat) (x : List Char),
    (ls.set i x).getD k [] =
      if k = i ∧ i < ls.length then x else ls.getD k [] := by
  induction ls with
  | nil => intro i k x; simp
  | cons l ls ih =>
    intro i k x
    cases i with
    | zero =>
      cases k with
      | zero => simp
      | succ k => simp
    | succ j =>
      cases k with
      | zero => simp
      | succ k =>
        rw [List.set_cons_succ, List.getD_cons_succ, List.getD_cons_succ,
          ih j k x]
        by_cases hk : k = j ∧ j < ls.length
        · rw [if_pos hk, if_pos (by simp only [List.length_cons]; omega)]
        · rw [if_neg hk, if_neg (by simp only [List.length_cons]; omega)]

/-- `LinesOK` is preserved by replacing one line with a line of the same
newline shape. -/
theorem LinesOK_set (ls : List (List Char)) : ∀ (i : Nat) (x : List Char),
    LinesOK ls → x ≠ [] → '\n' ∉ x.dropLast →
    x.getLast? = (ls.getD i []).getLast? →
    LinesOK (ls.set i x) := by
  induction ls with
  | nil => intro i x h _ _ _; simpa using h
  | cons l ls ih =>
    intro i x h hx1 hx2 hx3
    cases i with
    | zero =>
      rw [List.set_cons_zero]
      cases ls with
      | nil => exact ⟨hx1, hx2⟩
      | cons l₂ ls₂ =>
        obtain ⟨-, -, hlast, htail⟩ := h
        refine (LinesOK_cons _ _ (by simp)).mpr ⟨hx1, hx2, ?_, htail⟩
        rw [hx3]
        simpa using hlast
    | succ j =>
      rw [List.set_cons_succ]
      cases ls with
      | nil => simpa using h
      | cons l₂ ls₂ =>
        obtain ⟨h1, h2, h3, htail⟩ := h
        have hset_ne : (l₂ :: ls₂).set j x ≠ [] := by
          intro hc
          have := congrArg List.length hc
          simp at this
        refine (LinesOK_cons _ _ hset_ne).mpr ⟨h1, h2, h3, ?_⟩
        exact ih j x htail hx1 hx2 (by simpa using hx3)

/-- The `dropLast` of a decomposed task line contains a newline iff one of its
parts does (the status character and bracket characters are never newlines
here). -/
theorem dropLast_statusline (W1 W2 rest : List Char) (c : Char)
    (hc : c ≠ '\n') :
    '\n' ∈ (W1 ++ '-' :: (W2 ++ '[' :: c :: ']' :: rest)).dropLast ↔
      ('\n' ∈ W1 ∨ '\n' ∈ W2 ∨ '\n' ∈ (']' :: rest).dropLast) := by
  rw [List.dropLast_append_of_ne_nil _ (by simp)]
  rw [show ('-' :: (W2 ++ '[' :: c :: ']' :: rest) : List Char) =
    ['-'] ++ (W2 ++ '[' :: c :: ']' :: rest) by simp]
  rw [List.dropLast_append_of_ne_nil _ (by simp)]
  rw [List.dropLast_append_of_ne_nil _ (by simp)]
  rw [show ('[' :: c :: ']' :: rest : List Char) =
    ['[', c] ++ ']' :: rest by simp]
  rw [List.dropLast_append_of_ne_nil _ (by simp)]
  have h2 : ('\n' : Char) ≠ c := fun h => hc h.symm
  simp [List.mem_append, h2, show ('\n' : Char) ≠ '-' by decide,
    show ('\n' : Char) ≠ '[' by decide]

/-- The `getLast?` of a decomposed task line is that of its tail from the
closing bracket on. -/
theorem getLast_statusline (W1 W2 rest : List Char) (c : Char) :
    (W1 ++ '-' :: (W2 ++ '[' :: c :: ']' :: rest)).getLast? =
      (']' :: rest : List Char).getLast? := by
  rw [List.getLast?_append_of_ne_nil _ (by simp)]
  rw [show ('-' :: (W2 ++ '[' :: c :: ']' :: rest) : List Char) =
    (['-'] ++ W2 ++ ['[', c]) ++ ']' :: rest by simp]
  rw [List.getLast?_append_of_ne_nil _ (by simp)]

/-- The fuzzy scan only looks at candidacy and the normalized form of each
line. -/
theorem fuzzyScanAux_congr (cs : List Char) :
    ∀ (ls ls' : List (List Char)), ls.length = ls'.length →
      (∀ k, isCandidate (ls.getD k []) = isCandidate (ls'.getD k []) ∧
        cleanLine (ls.getD k []) = cleanLine (ls'.getD k [])) →
      ∀ (i : Nat) (acc : BestAcc),
        fuzzyScanAux cs ls i acc = fuzzyScanAux cs ls' i acc := by
  intro ls
  induction ls with
  | nil =>
    intro ls' hlen _ i acc
    cases ls' with
    | nil => rfl
    | cons l' ls₂ => simp at hlen
  | cons l ls ih =>
    intro ls' hlen hpt i acc
    cases ls' with
    | nil => simp at hlen
    | cons l' ls₂ =>
      have h0 := hpt 0
      simp only [List.getD_cons_zero] at h0
      have htail := ih ls₂ (by simpa using hlen)
        (fun k => by simpa using hpt (k + 1))
      show fuzzyScanAux cs (l :: ls) i acc = fuzzyScanAux cs (l' :: ls₂) i acc
      unfold fuzzyScanAux
      rw [h0.1, h0.2]
      by_cases hc : isCandidate l'
      · rw [if_pos hc, if_pos hc, htail]
      · rw [if_neg hc, if_neg hc, htail]

/-- C7 (amended): `updateStatus(d, s)` is idempotent for the four legal
statuses `[ ]`, `[x]`, `[/]`, `[!]` — whose bracket-stripped character stays
inside the candidate class `[x /!]` — on every ledger file and query: the file
content after the second call equals the content after the first. (For other
statuses such as `[?]` this fails; see the counterexample.) -/
theorem updateStatus_idempotent_for_valid_status (content q s : String)
    (hs : s = "[ ]" ∨ s = "[x]" ∨ s = "[/]" ∨ s = "[!]") :
    (update_task_status_in_file
        (update_task_status_in_file content q s).2 q s).2 =
      (update_task_status_in_file content q s).2 := by
  obtain ⟨c', hrepl, hcs⟩ :
      ∃ c', stripBracketChars s.toList = [c'] ∧ isStatusChar c' = true := by
    rcases hs with rfl | rfl | rfl | rfl
    · exact ⟨' ', by decide, by decide⟩
    · exact ⟨'x', by decide, by decide⟩
    · exact ⟨'/', by decide, by decide⟩
    · exact ⟨'!', by decide, by decide⟩
  by_cases hlt : (fuzzyScan (cleanSearch q.toList)
      (splitLines content.toList)).best_ratio < mkRat 3 5
  · have h1 : update_task_status_in_file content q s = (false, content) := by
      unfold update_task_status_in_file
      dsimp only
      rw [if_pos hlt]
    rw [h1]
    show (update_task_status_in_file content q s).2 = content
    rw [h1]
  · cases hidx : (fuzzyScan (cleanSearch q.toList)
        (splitLines content.toList)).best_idx with
    | none =>
      exfalso
      have hres := fuzzyScanAux_none (cleanSearch q.toList)
        (splitLines content.toList) 0 ⟨0, none⟩ hidx
      apply hlt
      show (fuzzyScanAux (cleanSearch q.toList) (splitLines content.toList) 0
        ⟨0, none⟩).best_ratio < mkRat 3 5
      rw [hres]
      decide
    | some i =>
      have hsome := fuzzyScanAux_some (cleanSearch q.toList)
        (splitLines content.toList) 0 ⟨0, none⟩ i hidx
      rcases hsome with h' | ⟨-, hilen, hicand⟩
      · simp at h'
      simp only [Nat.sub_zero] at hilen hicand
      by_cases hne : statusSub [c'] ((splitLines content.toList).getD i []) =
          (splitLines content.toList).getD i []
      · have h1 : update_task_status_in_file content q s = (true, content) := by
          unfold update_task_status_in_file
          dsimp only
          rw [if_neg hlt, hidx]
          dsimp only
          rw [hrepl]
          rw [if_neg (not_not_intro hne)]
        rw [h1]
        show (update_task_status_in_file content q s).2 = content
        rw [h1]
      · obtain ⟨tp, htp⟩ : ∃ tp, parseTaskPrefix
            ((splitLines content.toList).getD i []) = some tp := by
          unfold isCandidate at hicand
          exact Option.isSome_iff_exists.mp hicand
        obtain ⟨htgt, hw1, hw2, hsc⟩ := parseTaskPrefix_spec _ tp htp
        have hnew : statusSub [c'] ((splitLines content.toList).getD i []) =
            tp.ws1 ++ '-' :: (tp.ws2 ++ '[' :: c' :: ']' :: tp.rest) := by
          conv_lhs => rw [htgt]
          rw [statusSub_decomp [c'] tp.ws1 tp.ws2 tp.rest tp.statusChar
            hw1 hw2 hsc]
          simp
        have hcne := isStatusChar_ne tp.statusChar hsc
        have hcne' := isStatusChar_ne c' hcs
        have hLOK : LinesOK (splitLines content.toList) :=
          splitLinesAux_linesOK content.toList [] (by simp)
        have hmem : (splitLines content.toList).getD i [] ∈
            splitLines content.toList := getD_mem_of_lt _ i hilen
        have hproper := splitLinesAux_proper content.toList [] (by simp) _ hmem
        have hNLne : (tp.ws1 ++ '-' ::
            (tp.ws2 ++ '[' :: c' :: ']' :: tp.rest) : List Char) ≠ [] := by
          simp
        have hNLdrop : '\n' ∉ (tp.ws1 ++ '-' ::
            (tp.ws2 ++ '[' :: c' :: ']' :: tp.rest)).dropLast := by
          intro hmem'
          have h0 := hproper.2
          rw [htgt] at h0
          rw [dropLast_statusline _ _ _ _ hcne'.2.1] at hmem'
          rw [dropLast_statusline _ _ _ _ hcne.2.1] at h0
          exact h0 hmem'
        have hNLlast : (tp.ws1 ++ '-' ::
            (tp.ws2 ++ '[' :: c' :: ']' :: tp.rest)).getLast? =
            ((splitLines content.toList).getD i []).getLast? := by
          rw [htgt, getLast_statusline, getLast_statusline]
        have hLOK' : LinesOK ((splitLines content.toList).set i
            (tp.ws1 ++ '-' :: (tp.ws2 ++ '[' :: c' :: ']' :: tp.rest))) :=
          LinesOK_set _ i _ hLOK hNLne hNLdrop hNLlast
        have hsplit : splitLines (joinLines ((splitLines content.toList).set i
            (tp.ws1 ++ '-' :: (tp.ws2 ++ '[' :: c' :: ']' :: tp.rest)))) =
            (splitLines content.toList).set i
              (tp.ws1 ++ '-' :: (tp.ws2 ++ '[' :: c' :: ']' :: tp.rest)) :=
          splitLines_joinLines _ hLOK'
        have hcandNL : isCandidate (tp.ws1 ++ '-' ::
            (tp.ws2 ++ '[' :: c' :: ']' :: tp.rest)) = true := by
          unfold isCandidate
          rw [parseTaskPrefix_build tp.ws1 tp.ws2 tp.rest c' hw1 hw2 hcs]
          rfl
        have hcleanEq : cleanLine ((splitLines content.toList).getD i []) =
            cleanLine (tp.ws1 ++ '-' ::
              (tp.ws2 ++ '[' :: c' :: ']' :: tp.rest)) := by
          rw [htgt]
          exact cleanLine_statusChange tp.ws1 tp.ws2 tp.rest tp.statusChar c'
            hw1 hw2 hsc hcs
        have hscan : fuzzyScan (cleanSearch q.toList)
            ((splitLines content.toList).set i
              (tp.ws1 ++ '-' :: (tp.ws2 ++ '[' :: c' :: ']' :: tp.rest))) =
            fuzzyScan (cleanSearch q.toList) (splitLines content.toList) := by
          unfold fuzzyScan
          refine fuzzyScanAux_congr _ _ _ (by simp) ?_ 0 ⟨0, none⟩
          intro k
          rw [getD_set]
          by_cases hk : k = i ∧ i < (splitLines content.toList).length
          · rw [if_pos hk]
            obtain ⟨rfl, -⟩ := hk
            refine ⟨?_, hcleanEq.symm⟩
            rw [hcandNL, hicand]
          · rw [if_neg hk]
            exact ⟨rfl, rfl⟩
        have hfix : statusSub [c'] (tp.ws1 ++ '-' ::
            (tp.ws2 ++ '[' :: c' :: ']' :: tp.rest)) =
            tp.ws1 ++ '-' :: (tp.ws2 ++ '[' :: c' :: ']' :: tp.rest) := by
          rw [statusSub_decomp [c'] tp.ws1 tp.ws2 tp.rest c' hw1 hw2 hcs]
          simp
        have h1 : update_task_status_in_file content q s =
            (true, String.mk (joinLines ((splitLines content.toList).set i
              (tp.ws1 ++ '-' :: (tp.ws2 ++ '[' :: c' :: ']' :: tp.rest))))) := by
          unfold update_task_status_in_file
          dsimp only
          rw [if_neg hlt, hidx]
          dsimp only
          rw [hrepl, hnew]
          rw [if_pos (by rw [← hnew]; exact hne)]
        have h2 : update_task_status_in_file
            (String.mk (joinLines ((splitLines content.toList).set i
              (tp.ws1 ++ '-' :: (tp.ws2 ++ '[' :: c' :: ']' :: tp.rest))))) q s =
            (true, String.mk (joinLines ((splitLines content.toList).set i
              (tp.ws1 ++ '-' :: (tp.ws2 ++ '[' :: c' :: ']' :: tp.rest))))) := by
          unfold update_task_status_in_file
          dsimp only
          rw [show (String.mk (joinLines ((splitLines content.toList).set i
            (tp.ws1 ++ '-' :: (tp.ws2 ++ '[' :: c' :: ']' :: tp.rest))))).toList =
            joinLines ((splitLines content.toList).set i
              (tp.ws1 ++ '-' :: (tp.ws2 ++ '[' :: c' :: ']' :: tp.rest)))
            from rfl]
          rw [hsplit, hscan]
          rw [if_neg hlt, hidx]
          dsimp only
          rw [getD_set, if_pos (show i = i ∧
            i < (splitLines content.toList).length from ⟨rfl, hilen⟩)]
          rw [hrepl]
          rw [if_neg (not_not_intro hfix)]
        rw [h1]
        show (update_task_status_in_file
          (String.mk (joinLines ((splitLines content.toList).set i
            (tp.ws1 ++ '-' :: (tp.ws2 ++ '[' :: c' :: ']' :: tp.rest))))) q s).2 =
          String.mk (joinLines ((splitLines content.toList).set i
            (tp.ws1 ++ '-' :: (tp.ws2 ++ '[' :: c' :: ']' :: tp.rest))))
        rw [h2]

/-- Witness for C7 (amended): double-applying `updateStatus` with status
`[x]` on a concrete one-task ledger; the first call rewrites the line and the
second call leaves the rewritten file unchanged. -/
theorem updateStatus_idempotent_for_valid_status_witness :
    (update_task_status_in_file
        (update_task_status_in_file "- [ ] Alpha beta\n" "Alpha beta" "[x]").2
        "Alpha beta" "[x]").2 =
      (update_task_status_in_file "- [ ] Alpha beta\n" "Alpha beta" "[x]").2 ∧
    (update_task_status_in_file "- [ ] Alpha beta\n" "Alpha beta" "[x]").2 =
      "- [x] Alpha beta\n" :=
  ⟨updateStatus_idempotent_for_valid_status "- [ ] Alpha beta\n" "Alpha beta"
    "[x]" (Or.inr (Or.inl rfl)), by decide⟩

/- ### Sprint-file task parsers (`sprint_utils.py`) -/

/-- Python `content.split("\n")`: separator removed; at least one piece. -/
def splitOnNl (content : List Char) : List (List Char) :=
  content.splitOn '\n'

/-- Python regex `\w` (ASCII: letters, digits, underscore). -/
def isWordChar (c : Char) : Bool :=
  c.isAlphanum || c = '_'

/-- `re.findall(r"@(\w+)", s)`: the captured word runs of all leftmost
non-overlapping matches, scanning left to right. Fuel-based (the list length
suffices: every step consumes at least one character). -/
def findRolesAux : Nat → List Char → List (List Char)
  | 0, _ => []
  | _ + 1, [] => []
  | fuel + 1, c :: cs =>
    if c = '@' then
      if cs.takeWhile isWordChar = [] then findRolesAux fuel cs
      else cs.takeWhile isWordChar ::
        findRolesAux fuel (cs.dropWhile isWordChar)
    else findRolesAux fuel cs

def findRoles (l : List Char) : List (List Char) :=
  findRolesAux l.length l

/-- The status class `[ /!]` of the `parse_sprint_tasks` task regex. -/
def isParseStatus (c : Char) : Bool :=
  c = ' ' || c = '/' || c = '!'

/-- The status class `[ x/!?.]` of the `get_all_sprint_tasks` task regex. -/
def isAllStatus (c : Char) : Bool :=
  c = ' ' || c = 'x' || c = '/' || c = '!' || c = '?' || c = '.'

/-- `re.search(r"^\s*-\s*\[(CLASS)\]\s*(.*)", line)` (anchored by `^`, so a
match at the line start; both `\s*` runs are maximal, being followed by
non-whitespace literals): the status character and the `group(2)` remainder
after the final maximal `\s*`. -/
def taskLineMatch (statusClass : Char → Bool) (l : List Char) :
    Option (Char × List Char) :=
  match l.dropWhile isPySpace with
  | '-' :: r1 =>
    match r1.dropWhile isPySpace with
    | '[' :: c :: ']' :: rest =>
      if statusClass c then some (c, rest.dropWhile isPySpace) else none
    | _ => none
  | _ => none

/-- `re.match(r"^@(\w+)[:\s]\s*(.*)", full_desc)`: inline role and remaining
description. The maximal `\w+` run is forced: a shorter run ends at a word
character, which `[:\s]` rejects. -/
def inlineRoleMatch (d : List Char) : Option (List Char × List Char) :=
  match d with
  | '@' :: r =>
    if r.takeWhile isWordChar = [] then none
    else
      match r.dropWhile isWordChar with
      | c :: r2 =>
        if c = ':' || isPySpace c then
          some (r.takeWhile isWordChar, r2.dropWhile isPySpace)
        else none
      | [] => none
  | _ => none

/-- The shared header handling of both parsers: a stripped line starting with
`#` installs its `@role` mentions as the section roles; an `Epic`/`Story`
header without roles resets them; other lines leave them unchanged. -/
def updateSectionRoles (line : List Char) (roles : List (List Char)) :
    List (List Char) :=
  match stripWs line with
  | '#' :: _ =>
    if findRoles (stripWs line) ≠ [] then findRoles (stripWs line)
    else if listContains (stripWs line) ("Epic".toList) ∨
      listContains (stripWs line) ("Story".toList) then []
    else roles
  | _ => roles

/-- The shared role/description resolution: an inline role wins and shortens
the description; otherwise the first section role applies; otherwise no task
is produced. -/
def pickRole (roles : List (List Char)) (full_desc : List Char) :
    Option (List Char) × List Char :=
  match inlineRoleMatch full_desc with
  | some (r, d) => (some r, d)
  | none =>
    match roles with
    | r :: _ => (some r, full_desc)
    | [] => (none, full_desc)

/-- The `status_map` of `get_all_sprint_tasks` with its `"unknown"` default. -/
def statusMapAll (c : Char) : List Char :=
  if c = ' ' then "todo".toList
  else if c = 'x' then "done".toList
  else if c = '/' then "in_progress".toList
  else if c = '!' then "blocked".toList
  else if c = '?' then "defect".toList
  else "unknown".toList

/-- The `status_map` of `parse_sprint_tasks` with its `"todo"` default. -/
def statusMapParse (c : Char) : List Char :=
  if c = ' ' then "todo".toList
  else if c = '/' then "in_progress".toList
  else if c = '!' then "blocked".toList
  else "todo".toList

/-- The lazy `(.+?)\]\s*$` continuation: the minimal nonempty body whose
closing `']'` is followed only by whitespace. -/
def blockedBody (cs : List Char) : Option (List Char) :=
  match cs with
  | [] => none
  | c :: cs' =>
    if c = '\n' then none
    else (lazyCloseWsEnd cs').map (fun p => c :: p.1)

/-- The greedy `\s*` of `\[BLOCKED:\s*(.+?)\]\s*$` after the colon: try the
longest whitespace run first, backing off until the lazy body can match. -/
def blockedWsLoop (u : List Char) : Nat → Option (List Char)
  | 0 => blockedBody u
  | k + 1 =>
    match blockedBody (u.drop (k + 1)) with
    | some b => some b
    | none => blockedWsLoop u k

def blockedAfterColon (u : List Char) : Option (List Char) :=
  blockedWsLoop u (u.takeWhile isPySpace).length

/-- `re.search(r"\[BLOCKED:\s*(.+?)\]\s*$", desc)`: group(1) of the match at
the leftmost viable start position. -/
def blockedSearch : List Char → Option (List Char)
  | [] => none
  | c :: cs =>
    if decide ("[BLOCKED:".toList <+: (c :: cs)) then
      match blockedAfterColon ((c :: cs).drop 9) with
      | some b => some b
      | none => blockedSearch cs
    else blockedSearch cs

/-- The leftmost `'['` from which `\[BLOCKED:.+?\]\s*$` (the removal pattern —
note: no `\s*` after the colon) matches. -/
def removeBlockedLoc : List Char → Option Nat
  | [] => none
  | c :: cs =>
    if decide ("[BLOCKED:".toList <+: (c :: cs)) ∧
        (blockedBody ((c :: cs).drop 9)).isSome then some 0
    else (removeBlockedLoc cs).map (· + 1)

/-- Embedding of `re.sub(r"\s*\[BLOCKED:.+?\]\s*$", "", desc)`: delete from
the whitespace run preceding the leftmost viable `[BLOCKED:` to the end. -/
def removeBlockedSpan (s : List Char) : List Char :=
  match removeBlockedLoc s with
  | none => s
  | some q =>
    s.take (q - ((s.take q).reverse.takeWhile isPySpace).length)

/-- A parsed task of `sprint_utils.py`. `blocker_reason` is only ever set by
`parse_sprint_tasks` (with `none` for Python `None`); `raw_line` is only ever
set by `get_all_sprint_tasks` (with `[]` in `parse_sprint_tasks`). -/
structure SprintTask where
  role : List Char
  desc : List Char
  status : List Char
  blocker_reason : Option (List Char)
  raw_line : List Char
deriving DecidableEq

/-- Per-line step of `parse_sprint_tasks`: the updated section roles, the
appended task if any, and whether the missing-blocker-reason warning is
logged. -/
def parseTasksLine (roles : List (List Char)) (line : List Char) :
    List (List Char) × Option SprintTask × Bool :=
  let roles' := updateSectionRoles line roles
  match taskLineMatch isParseStatus line with
  | none => (roles', none, false)
  | some (c, g2) =>
    match pickRole roles' (stripWs g2) with
    | (none, _) => (roles', none, false)
    | (some role, desc) =>
      if c = '!' then
        match blockedSearch desc with
        | some b =>
          (roles', some ⟨role, stripWs (removeBlockedSpan desc),
            statusMapParse c, some (stripWs b), []⟩, false)
        | none => (roles', some ⟨role, desc, statusMapParse c, none, []⟩, true)
      else (roles', some ⟨role, desc, statusMapParse c, none, []⟩, false)

/-- The line loop of `parse_sprint_tasks`, threading the section roles and
counting logged warnings. -/
def parseTasksGo (roles : List (List Char)) :
    List (List Char) → List SprintTask × Nat
  | [] => ([], 0)
  | line :: ls =>
    match parseTasksLine roles line with
    | (roles', t?, w) =>
      match parseTasksGo roles' ls with
      | (ts, n) =>
        (match t? with
         | some t => t :: ts
         | none => ts,
         (if w then 1 else 0) + n)

/-- Embedding of `parse_sprint_tasks` on the sprint file's content (the file
exists and reads succeed): the parsed tasks and the number of
missing-blocker-reason warnings logged. -/
def parse_sprint_tasks (content : String) : List SprintTask × Nat :=
  parseTasksGo [] (splitOnNl content.toList)

/-- Per-line step of `get_all_sprint_tasks`. -/
def getAllLine (roles : List (List Char)) (line : List Char) :
    List (List Char) × Option SprintTask :=
  let roles' := updateSectionRoles line roles
  match taskLineMatch isAllStatus line with
  | none => (roles', none)
  | some (c, g2) =>
    match pickRole roles' (stripWs g2) with
    | (none, _) => (roles', none)
    | (some role, desc) =>
      (roles', some ⟨role, desc, statusMapAll c, none, stripWs line⟩)

/-- The line loop of `get_all_sprint_tasks`. -/
def getAllGo (roles : List (List Char)) : List (List Char) → List SprintTask
  | [] => []
  | line :: ls =>
    match getAllLine roles line with
    | (roles', some t) => t :: getAllGo roles' ls
    | (roles', none) => getAllGo roles' ls

/-- Embedding of `get_all_sprint_tasks` on the sprint file's content. -/
def get_all_sprint_tasks (content : String) : List SprintTask :=
  getAllGo [] (splitOnNl content.toList)

/-- A task produced by `getAllLine` never carries a blocker reason. -/
theorem getAllLine_blocker (roles : List (List Char)) (line : List Char) :
    ∀ t, (getAllLine roles line).2 = some t → t.blocker_reason = none := by
  intro t ht
  unfold getAllLine at ht
  dsimp only at ht
  split at ht
  · simp at ht
  · split at ht
    · simp at ht
    · simp at ht
      rw [← ht]

/-- No task returned by the `get_all_sprint_tasks` loop carries a blocker
reason. -/
theorem getAllGo_blocker_none (ls : List (List Char)) :
    ∀ (roles : List (List Char)), ∀ t ∈ getAllGo roles ls,
      t.blocker_reason = none := by
  induction ls with
  | nil => intro roles t ht; simp [getAllGo] at ht
  | cons line ls ih =>
    intro roles t ht
    unfold getAllGo at ht
    split at ht
    · next roles' t0 heq =>
      rcases List.mem_cons.mp ht with rfl | ht'
      · exact getAllLine_blocker roles line t (by rw [heq])
      · exact ih roles' t ht'
    · next roles' heq => exact ih roles' t ht

/-- C8 counterexample: the claim attributes the blocker handling to
`parseAll`. `get_all_sprint_tasks` (the parser covering all five status
characters) returns a Blocked line's description with its
`[BLOCKED: reason]` suffix untouched and no extracted reason; the
extraction/stripping — and the missing-reason warning — happen only in
`parse_sprint_tasks`. -/
theorem getAll_keeps_blocked_suffix :
    get_all_sprint_tasks "- [!] @QA: Fix bug [BLOCKED: db down]" =
      [⟨"QA".toList, "Fix bug [BLOCKED: db down]".toList, "blocked".toList,
        none, "- [!] @QA: Fix bug [BLOCKED: db down]".toList⟩] ∧
    parse_sprint_tasks "- [!] @QA: Fix bug [BLOCKED: db down]" =
      ([⟨"QA".toList, "Fix bug".toList, "blocked".toList,
        some ("db down".toList), []⟩], 0) ∧
    parse_sprint_tasks "- [!] @QA: Fix bug" =
      ([⟨"QA".toList, "Fix bug".toList, "blocked".toList, none, []⟩], 1) := by
  refine ⟨by decide, by decide, by decide⟩

/-- C8 (amended): `get_all_sprint_tasks` maps the bracketed status character
per the legend (`' '`→todo, `'x'`→done, `'/'`→in_progress, `'!'`→blocked,
`'?'`→defect) but never extracts a blocker reason; the `[BLOCKED: reason]`
handling lives in `parse_sprint_tasks`, where a Blocked line with the suffix
has the reason extracted and stripped from the description, and a Blocked
line without it still yields a task (with no reason) while the warning is
logged. -/
theorem sprint_parsers_amended (content : String) :
    (∀ t ∈ get_all_sprint_tasks content, t.blocker_reason = none) ∧
    (statusMapAll ' ' = "todo".toList ∧ statusMapAll 'x' = "done".toList ∧
     statusMapAll '/' = "in_progress".toList ∧
     statusMapAll '!' = "blocked".toList ∧
     statusMapAll '?' = "defect".toList) ∧
    (∀ (roles : List (List Char)) (line g2 : List Char),
      taskLineMatch isParseStatus line = some ('!', g2) →
      ∀ (role desc : List Char),
        pickRole (updateSectionRoles line roles) (stripWs g2) =
          (some role, desc) →
        (blockedSearch desc = none →
          parseTasksLine roles line =
            (updateSectionRoles line roles,
             some ⟨role, desc, "blocked".toList, none, []⟩, true)) ∧
        (∀ b, blockedSearch desc = some b →
          parseTasksLine roles line =
            (updateSectionRoles line roles,
             some ⟨role, stripWs (removeBlockedSpan desc), "blocked".toList,
               some (stripWs b), []⟩, false))) := by
  refine ⟨fun t ht => getAllGo_blocker_none _ [] t ht,
    ⟨by decide, by decide, by decide, by decide, by decide⟩, ?_⟩
  intro roles line g2 hmatch role desc hpick
  have hsm : statusMapParse '!' = "blocked".toList := by decide
  constructor
  · intro hns
    unfold parseTasksLine
    dsimp only
    rw [hmatch]
    dsimp only
    rw [hpick]
    dsimp only
    rw [if_pos rfl, hns, hsm]
  · intro b hb
    unfold parseTasksLine
    dsimp only
    rw [hmatch]
    dsimp only
    rw [hpick]
    dsimp only
    rw [if_pos rfl, hb, hsm]

/-- Witness for C8 (amended) at a concrete ledger: the reason `db down` is
extracted and stripped by `parse_sprint_tasks`, and `get_all_sprint_tasks`
never reports one. -/
theorem sprint_parsers_amended_witness :
    (∀ t ∈ get_all_sprint_tasks "- [!] @QA: Fix bug [BLOCKED: db down]",
      t.blocker_reason = none) ∧
    parseTasksLine [] "- [!] @QA: Fix bug [BLOCKED: db down]".toList =
      ([], some ⟨"QA".toList, "Fix bug".toList, "blocked".toList,
        some ("db down".toList), []⟩, false) := by
  constructor
  · exact (sprint_parsers_amended "- [!] @QA: Fix bug [BLOCKED: db down]").1
  · have h := ((sprint_parsers_amended
      "- [!] @QA: Fix bug [BLOCKED: db down]").2.2 []
      "- [!] @QA: Fix bug [BLOCKED: db down]".toList
      "@QA: Fix bug [BLOCKED: db down]".toList (by decide)
      "QA".toList "Fix bug [BLOCKED: db down]".toList (by decide)).2
      "db down".toList (by decide)
    rw [h]
    decide

/- ### Turn-budget state machine (`parallel_sprint_runner.py`, `run_agent`) -/

/-- One streamed event of a `run_agent` loop iteration. `budget_calls` lists,
in order, the `request_turn_budget` tool invocations found among the event's
parts, each carrying its `estimated_turns` argument when present
(`args.get('estimated_turns', 20)` supplies 20 when the argument is absent).
An event with no such calls is a plain progress turn. -/
structure WorkEvent where
  budget_calls : List (Option Int) := []
deriving DecidableEq

/-- Fatal per-unit error of the turn-budget machine
(`RuntimeError(f"Task exceeded hard limit ({hard_limit})")`). -/
inductive RunError where
  | hardLimitExceeded (hard_limit : Int)
deriving DecidableEq

/-- State of the `run_agent` loop: the local variables `turn_count`,
`soft_limit`, `hard_limit`, plus the list of turn numbers at which a soft-limit
warning was printed. -/
structure AgentRunState where
  turn_count : Nat
  soft_limit : Int
  hard_limit : Int
  warned_turns : List Nat
deriving DecidableEq

/-- Budget recomputation performed for one `request_turn_budget` call:
`soft_limit = max(20, int(est)); hard_limit = soft_limit * 2`. -/
def applyBudgetCall (_limits : Int × Int) (call : Option Int) : Int × Int :=
  let est := call.getD 20
  let soft := max 20 est
  (soft, soft * 2)

/-- Embedding of one iteration of the `async for event in runner.run_async(...)`
loop of `run_agent`: increment the turn counter, apply any budget updates from
the event's `request_turn_budget` calls, emit a non-fatal warning when
`soft_limit < turn_count ≤ hard_limit`, and raise when
`turn_count > hard_limit`. -/
def stepEvent (st : AgentRunState) (ev : WorkEvent) : Except RunError AgentRunState :=
  let c := st.turn_count + 1
  let lims := ev.budget_calls.foldl applyBudgetCall (st.soft_limit, st.hard_limit)
  let warned :=
    if lims.1 < (c : Int) ∧ (c : Int) ≤ lims.2 then st.warned_turns ++ [c]
    else st.warned_turns
  if lims.2 < (c : Int) then
    .error (.hardLimitExceeded lims.2)
  else
    .ok { turn_count := c, soft_limit := lims.1, hard_limit := lims.2,
          warned_turns := warned }

/-- Initial budget state of `run_agent`:
`soft_limit = max(40, initial_budget)`, `hard_limit = soft_limit * 2`, where
`initial_budget` models `parse_task_metadata(desc, 'TURNS_ESTIMATED', default=40)`
(the task's TURNS_ESTIMATED metadata, or 40). -/
def initialRunState (initial_budget : Int) : AgentRunState :=
  { turn_count := 0
    soft_limit := max 40 initial_budget
    hard_limit := max 40 initial_budget * 2
    warned_turns := [] }

/-- Embedding of the whole `run_agent` event loop; on success the final
`turn_count` is the actual turn count the unit reports. -/
def runAgent (initial_budget : Int) (events : List WorkEvent) :
    Except RunError AgentRunState :=
  events.foldlM stepEvent (initialRunState initial_budget)

/- ### Content filter and input guardrails (`sprint_guardrails.py`) -/

/-- Embedding of Python `needle in haystack` on strings. -/
def strContains (hay needle : String) : Bool :=
  decide (needle.toList <:+: hay.toList)

/-- Default harmful-command keyword list of `ContentFilter.__init__`. -/
def harmful_keywords : List String :=
  ["rm -rf /", "mkfs", ":()\x7b :|:& \x7d;:", "> /dev/sda", "format c:"]

/-- Embedding of `ContentFilter.check_harmful_content`: the first keyword
contained in the text produces the violation reason. -/
def check_harmful_content (text : String) : Option String :=
  (harmful_keywords.find? (fun k => strContains text k)).map
    (fun k => "Potentially harmful command detected: " ++ k)

/-- Embedding of the `GuardrailViolation` dataclass (severity, reason, and the
`type` entry of the details dict). -/
structure GuardrailViolation where
  severity : String
  reason : String
  vtype : String
deriving DecidableEq

/-- Embedding of `AgentGuardrails.validate_input` (content filter enabled, as
the default constructor does): harmful-command substring check only;
`is_valid` iff no blocking violation. -/
def validate_input (user_input : String) : Bool × List GuardrailViolation :=
  let violations :=
    match check_harmful_content user_input with
    | some r => [⟨"block", r, "harmful_content"⟩]
    | none => []
  (!(violations.any (fun v => v.severity == "block")), violations)

/- ### PII detection (`sprint_guardrails.py`, `PIIDetector`) -/

/-- AST of the Python regexes of `PIIDetector.PATTERNS`, with `re.IGNORECASE`
folded into the character predicates (so for example `[0-9A-Z]` also accepts
lowercase letters): character class, sequence, alternation, greedy option,
greedy counted repetition of a character class (`{m}`, `{m,n}`, `{m,}`, `+`),
word boundary `\b`, and the single capture group whose value `findall`
returns. -/
inductive Re where
  | eps : Re
  | cls (p : Char → Bool) : Re
  | seq (a b : Re) : Re
  | alt (a b : Re) : Re
  | opt (a : Re) : Re
  | repCls (p : Char → Bool) (m : Nat) (mx : Option Nat) : Re
  | wordB : Re
  | grp1 (a : Re) : Re

/-- Whether position `i` of the text holds a word character (`\w`). -/
def wordAt (t : List Char) (i : Nat) : Bool :=
  decide (i < t.length) && isWordChar (t.getD i ' ')

/-- Python `\b`: a word character on exactly one side of the position. -/
def atWordBoundary (t : List Char) (i : Nat) : Bool :=
  (if i = 0 then false else wordAt t (i - 1)) != wordAt t i

/-- Length of the run of class characters starting at `i`. -/
def classRun (t : List Char) (p : Char → Bool) (i : Nat) : Nat :=
  ((t.drop i).takeWhile p).length

/-- Greedy backtracking over a repetition count: try end positions `lo + d`,
`lo + d - 1`, …, `lo`, in that order. -/
def tryDown (k : Nat → Option (Nat × Option (Nat × Nat))) (lo : Nat) :
    Nat → Option (Nat × Option (Nat × Nat))
  | 0 => k lo
  | d + 1 =>
    match k (lo + (d + 1)) with
    | some r => some r
    | none => tryDown k lo d

/-- Backtracking matcher in continuation style, following Python `re`
priority (greedy quantifiers try longest first, alternation tries the left
alternative first). The continuation receives the position after the node and
the current group-1 span. -/
def mrun (t : List Char) : Re → Nat → Option (Nat × Nat) →
    (Nat → Option (Nat × Nat) → Option (Nat × Option (Nat × Nat))) →
    Option (Nat × Option (Nat × Nat))
  | .eps, i, g, k => k i g
  | .cls p, i, g, k =>
    if decide (i < t.length) && p (t.getD i ' ') then k (i + 1) g else none
  | .seq a b, i, g, k => mrun t a i g (fun j g' => mrun t b j g' k)
  | .alt a b, i, g, k =>
    match mrun t a i g k with
    | some r => some r
    | none => mrun t b i g k
  | .opt a, i, g, k =>
    match mrun t a i g k with
    | some r => some r
    | none => k i g
  | .repCls p m mx, i, g, k =>
    let bound := match mx with
      | none => classRun t p i
      | some b => min (classRun t p i) b
    if bound < m then none
    else tryDown (fun j => k j g) (i + m) (bound - m)
  | .wordB, i, g, k => if atWordBoundary t i then k i g else none
  | .grp1 a, i, g, k => mrun t a i g (fun j _ => k j (some (i, j)))

/-- Anchored match at position `i`: final position and group-1 span of the
first parse in priority order. -/
def matchAt (t : List Char) (r : Re) (i : Nat) :
    Option (Nat × Option (Nat × Nat)) :=
  mrun t r i none (fun j g => some (j, g))

/-- The leftmost match at or after position `i` (fuel covers the remaining
start positions). -/
def scanAux (t : List Char) (r : Re) : Nat → Nat →
    Option (Nat × Nat × Option (Nat × Nat))
  | _, 0 => none
  | i, fuel + 1 =>
    match matchAt t r i with
    | some (j, g) => some (i, j, g)
    | none => scanAux t r (i + 1) fuel

/-- The substring `t[s:e]`. -/
def sliceTxt (t : List Char) (s e : Nat) : List Char :=
  (t.drop s).take (e - s)

/-- `re.findall`: all leftmost non-overlapping matches, scanning left to
right (an empty match advances by one position). -/
def findallAux (t : List Char) (r : Re) : Nat → Nat →
    List (Nat × Nat × Option (Nat × Nat))
  | _, 0 => []
  | i, fuel + 1 =>
    match scanAux t r i (t.length + 1 - i) with
    | none => []
    | some (s, e, g) =>
      (s, e, g) :: findallAux t r (if s < e then e else s + 1) fuel

def findall (t : List Char) (r : Re) :
    List (Nat × Nat × Option (Nat × Nat)) :=
  findallAux t r 0 (t.length + 1)

/-- `re.sub(pattern, repl, text)`: replace every non-overlapping match. -/
def subAllAux (t : List Char) (r : Re) (repl : List Char) : Nat → Nat →
    List Char
  | i, 0 => t.drop i
  | i, fuel + 1 =>
    match scanAux t r i (t.length + 1 - i) with
    | none => t.drop i
    | some (s, e, _) =>
      sliceTxt t i s ++ repl ++
        (if s < e then subAllAux t r repl e fuel
         else
           match t.drop e with
           | [] => []
           | c :: _ => c :: subAllAux t r repl (e + 1) fuel)

def subAll (t : List Char) (r : Re) (repl : List Char) : List Char :=
  subAllAux t r repl 0 (t.length + 1)

/- #### The eight `PIIDetector.PATTERNS` regexes -/

def emailLocalChar (c : Char) : Bool :=
  c.isAlphanum || c = '.' || c = '_' || c = '%' || c = '+' || c = '-'

def emailDomainChar (c : Char) : Bool := c.isAlphanum || c = '.' || c = '-'

/-- `[A-Z|a-z]`: letters and the literal `'|'` of the class. -/
def emailTldChar (c : Char) : Bool := c.isAlpha || c = '|'

def dashDotChar (c : Char) : Bool := c = '-' || c = '.'

def dashWsChar (c : Char) : Bool := c = '-' || isPySpace c

def apiSepChar (c : Char) : Bool :=
  c = '"' || isPySpace c || c = ':' || c = '='

def apiValChar (c : Char) : Bool := c.isAlphanum || c = '_' || c = '-'

/-- `[0-9A-Z]` under `re.IGNORECASE`: digits and letters of either case. -/
def awsTailChar (c : Char) : Bool := c.isDigit || c.isAlpha

/-- `[0-9A-Za-z\\-_]`: alphanumerics, backslash, dash, underscore. -/
def googleTailChar (c : Char) : Bool :=
  c.isAlphanum || c = '\\' || c = '-' || c = '_'

/-- A case-insensitive literal (argument supplied in lowercase). -/
def litCI (s : List Char) : Re :=
  s.foldr (fun c r => .seq (.cls (fun x => x.toLower = c)) r) .eps

/-- `\b[A-Za-z0-9._%+-]+@[A-Za-z0-9.-]+\.[A-Z|a-z]{2,}\b` -/
def reEmail : Re :=
  .seq .wordB (.seq (.repCls emailLocalChar 1 none)
    (.seq (.cls (· = '@')) (.seq (.repCls emailDomainChar 1 none)
      (.seq (.cls (· = '.')) (.seq (.repCls emailTldChar 2 none) .wordB)))))

/-- `\b(?:\+?1[-.]?)?\(?([0-9]{3})\)?[-.]?([0-9]{3})[-.]?([0-9]{4})\b`
(groups 2 and 3 are modelled without capture: `findall` only uses the first
group as the value). -/
def rePhone : Re :=
  .seq .wordB
    (.seq (.opt (.seq (.opt (.cls (· = '+')))
        (.seq (.cls (· = '1')) (.opt (.cls dashDotChar)))))
      (.seq (.opt (.cls (· = '(')))
        (.seq (.grp1 (.repCls Char.isDigit 3 (some 3)))
          (.seq (.opt (.cls (· = ')')))
            (.seq (.opt (.cls dashDotChar))
              (.seq (.repCls Char.isDigit 3 (some 3))
                (.seq (.opt (.cls dashDotChar))
                  (.seq (.repCls Char.isDigit 4 (some 4)) .wordB))))))))

/-- `\b\d{3}-\d{2}-\d{4}\b` -/
def reSsn : Re :=
  .seq .wordB (.seq (.repCls Char.isDigit 3 (some 3))
    (.seq (.cls (· = '-')) (.seq (.repCls Char.isDigit 2 (some 2))
      (.seq (.cls (· = '-'))
        (.seq (.repCls Char.isDigit 4 (some 4)) .wordB)))))

/-- `\b\d{4}[-\s]?\d{4}[-\s]?\d{4}[-\s]?\d{4}\b` -/
def reCreditCard : Re :=
  .seq .wordB (.seq (.repCls Char.isDigit 4 (some 4))
    (.seq (.opt (.cls dashWsChar)) (.seq (.repCls Char.isDigit 4 (some 4))
      (.seq (.opt (.cls dashWsChar)) (.seq (.repCls Char.isDigit 4 (some 4))
        (.seq (.opt (.cls dashWsChar))
          (.seq (.repCls Char.isDigit 4 (some 4)) .wordB)))))))

/-- One `[0-9]{1,3}\.` repetition of the IP pattern. -/
def reOctetDot : Re :=
  .seq (.repCls Char.isDigit 1 (some 3)) (.cls (· = '.'))

/-- `\b(?:[0-9]{1,3}\.){3}[0-9]{1,3}\b` -/
def reIpAddress : Re :=
  .seq .wordB (.seq reOctetDot (.seq reOctetDot (.seq reOctetDot
    (.seq (.repCls Char.isDigit 1 (some 3)) .wordB))))

/-- `\b(?:api[_-]?key|token|secret|password)["\s:=]+([A-Za-z0-9_\-]{20,})` -/
def reApiKey : Re :=
  .seq .wordB
    (.seq (.alt (.seq (litCI "api".toList)
        (.seq (.opt (.cls (fun c => c = '_' || c = '-')))
          (litCI "key".toList)))
      (.alt (litCI "token".toList)
        (.alt (litCI "secret".toList) (litCI "password".toList))))
      (.seq (.repCls apiSepChar 1 none)
        (.grp1 (.repCls apiValChar 20 none))))

/-- `\b(AKIA[0-9A-Z]{16})\b` (case-insensitive). -/
def reAwsKey : Re :=
  .seq .wordB (.seq (.grp1 (.seq (litCI "akia".toList)
    (.repCls awsTailChar 16 (some 16)))) .wordB)

/-- `\b(AIza[0-9A-Za-z\\-_]{35})\b` (case-insensitive). -/
def reGoogleKey : Re :=
  .seq .wordB (.seq (.grp1 (.seq (litCI "aiza".toList)
    (.repCls googleTailChar 35 (some 35)))) .wordB)

/-- One entry of `PIIDetector.PATTERNS`: name, pattern, whether `findall`
returns group values (the pattern has groups), and the `mask_pii`
placeholder `[{TYPE}_REDACTED]`. -/
structure PiiPat where
  pii_type : List Char
  pattern : Re
  grouped : Bool
  placeholder : List Char

/-- `PIIDetector.PATTERNS` in dict (insertion) order. -/
def PATTERNS : List PiiPat :=
  [⟨"email".toList, reEmail, false, "[EMAIL_REDACTED]".toList⟩,
   ⟨"phone".toList, rePhone, true, "[PHONE_REDACTED]".toList⟩,
   ⟨"ssn".toList, reSsn, false, "[SSN_REDACTED]".toList⟩,
   ⟨"credit_card".toList, reCreditCard, false,
     "[CREDIT_CARD_REDACTED]".toList⟩,
   ⟨"ip_address".toList, reIpAddress, false, "[IP_ADDRESS_REDACTED]".toList⟩,
   ⟨"api_key".toList, reApiKey, true, "[API_KEY_REDACTED]".toList⟩,
   ⟨"aws_key".toList, reAwsKey, true, "[AWS_KEY_REDACTED]".toList⟩,
   ⟨"google_key".toList, reGoogleKey, true, "[GOOGLE_KEY_REDACTED]".toList⟩]

/-- The `value` a `findall` match contributes in `PIIDetector.detect`: the
first group for grouped patterns, the whole match otherwise. -/
def findingValue (t : List Char) (p : PiiPat)
    (m : Nat × Nat × Option (Nat × Nat)) : List Char :=
  if p.grouped then
    match m.2.2 with
    | some (a, b) => sliceTxt t a b
    | none => []
  else sliceTxt t m.1 m.2.1

/-- Embedding of `PIIDetector.detect`: `(pii_type, value)` for every match
with a truthy value, patterns in dict order. -/
def detect (text : List Char) : List (List Char × List Char) :=
  (PATTERNS.map (fun p =>
    (findall text p.pattern).filterMap (fun m =>
      if findingValue text p m = [] then none
      else some (p.pii_type, findingValue text p m)))).flatten

/-- Embedding of `PIIDetector.mask_pii`: substitute each pattern's matches by
its placeholder, patterns applied in dict order to the running result. -/
def mask_pii (text : List Char) : List Char :=
  PATTERNS.foldl (fun m p => subAll m p.pattern p.placeholder) text

/-- Embedding of `AgentGuardrails.validate_output` (all components enabled,
as the default constructor does): PII detection with masking, then the
harmful-content check; `is_valid` iff no blocking violation. -/
def validate_output (agent_output : String) :
    Bool × List GuardrailViolation × String :=
  let findings := detect agent_output.toList
  let pii_violations : List GuardrailViolation :=
    if findings ≠ [] then
      [⟨"block", "PII detected: " ++ toString findings.length ++ " instances",
        "pii_exposure"⟩]
    else []
  let sanitized :=
    if findings ≠ [] then mask_pii agent_output.toList
    else agent_output.toList
  let harm_violations : List GuardrailViolation :=
    match check_harmful_content agent_output with
    | some r => [⟨"block", r, "harmful_content"⟩]
    | none => []
  (!((pii_violations ++ harm_violations).any (fun v => v.severity == "block")),
    pii_violations ++ harm_violations, String.mk sanitized)

/- ### Scheduling pass (`parallel_sprint_runner.py`, `run_parallel_execution`) -/

/-- Ledger status of a task, per the status-character legend. -/
inductive TaskStatus where
  | todo | in_progress | blocked | done | defect | unknown
deriving DecidableEq

/-- A queue entry of one scheduling pass: the parsed task description, its
parse-time status, and whether the wrapped agent run for it ends in success
(the worker's boundary to the external Agent capability; `run_agent` always
terminates with success or an exception since the event stream is finite). -/
structure WorkItem where
  desc : String
  status : TaskStatus
  outcome : Bool

/-- State of one scheduling pass as executed by a single worker (an instance
of `run_parallel_execution`; with higher concurrency each worker carries its
own `actual_turns` binding while the other fields are shared): the ledger
statuses keyed by task description (each `update_sprint_task_status(desc, s,
...)` call of the worker abstracted to updating the record its description
identifies), the in-run `task_retry_tracker`, the guardrails' circuit
breaker, whether a `ProfileManager` is wired (`SprintRunner` always passes
one; bare `run_parallel_execution` defaults to `None`), and whether the
worker-function local `actual_turns` has been bound — which only the success
branch `actual_turns = await run_agent()` ever does. -/
structure PassState where
  ledger : String → TaskStatus
  tracker : String → Nat
  breaker : CircuitBreaker
  profile_manager : Bool
  actual_turns_bound : Bool

/-- `MAX_BLOCKED_RETRIES` constant of `run_parallel_execution`. -/
def MAX_BLOCKED_RETRIES : Nat := 2

/-- Pointwise ledger update. -/
def setLedger (f : String → TaskStatus) (d : String) (s : TaskStatus) :
    String → TaskStatus :=
  fun x => if x = d then s else f x

/-- `task_retry_tracker[desc] = task_retry_tracker.get(desc, 0) + 1`. -/
def bumpTracker (f : String → Nat) (d : String) : String → Nat :=
  fun x => if x = d then f d + 1 else f x

/-- Embedding of the worker loop body for one dequeued item (guardrails
enabled): guardrail input check (mark Blocked on violation), circuit-breaker
check (mark Blocked when open), blocked-retry limit (skip untouched at
`MAX_BLOCKED_RETRIES` or more prior in-run failures), otherwise mark
InProgress, run the unit, and mark Done on success (binding `actual_turns`).
In the failure handler the circuit-breaker failure record comes first; then,
when a `ProfileManager` is wired and `actual_turns` is unbound (no prior
success in this worker), the `update_profile(..., turns=actual_turns)`
argument raises `UnboundLocalError`, which skips both the retry-tracker bump
and the Blocked write and is swallowed by the worker's outer handler — the
task stays InProgress; otherwise the handler completes, bumping the tracker
and marking Blocked. -/
def processItem (st : PassState) (it : WorkItem) : PassState :=
  if !(validate_input it.desc).1 then
    { st with ledger := setLedger st.ledger it.desc .blocked }
  else if (st.breaker.is_open it.desc).1 then
    { st with ledger := setLedger st.ledger it.desc .blocked }
  else if it.status = .blocked ∧ MAX_BLOCKED_RETRIES ≤ st.tracker it.desc then
    st
  else
    let st1 : PassState := { st with ledger := setLedger st.ledger it.desc .in_progress }
    if it.outcome then
      { st1 with breaker := st1.breaker.record_action it.desc true,
                 ledger := setLedger st1.ledger it.desc .done,
                 actual_turns_bound := true }
    else if st.profile_manager && !st.actual_turns_bound then
      { st1 with breaker := st1.breaker.record_action it.desc false }
    else
      { st1 with breaker := st1.breaker.record_action it.desc false,
                 tracker := bumpTracker st1.tracker it.desc,
                 ledger := setLedger st1.ledger it.desc .blocked }

/-- A completed scheduling pass over the queued items (queue drained, no
cancellation mid-item). -/
def runPass (st : PassState) (items : List WorkItem) : PassState :=
  items.foldl processItem st

/-- Frame property: processing an item only touches its own description's
ledger entry and tracker entry. -/
theorem processItem_frame (st : PassState) (it : WorkItem) (d : String)
    (hd : d ≠ it.desc) :
    (processItem st it).ledger d = st.ledger d ∧
      (processItem st it).tracker d = st.tracker d := by
  unfold processItem
  split_ifs <;> simp_all [setLedger, bumpTracker]

/-- C1 (code-bug evidence): the claim says a processed failing task ends
Blocked and only cancellation leaves a task InProgress. In the worker's
failure handler, `profile_manager.update_profile(..., turns=actual_turns)`
(parallel_sprint_runner.py line 561) references `actual_turns`, which is
assigned only by the success branch (line 513); with a `ProfileManager` wired
— as `SprintRunner` always does — a worker's first failure raises
`UnboundLocalError` while the circuit-breaker failure record (lines 556-557)
has already happened, and the raise skips both the retry-tracker bump (line
584) and the Blocked write (line 586); the outer handler (line 594) swallows
it and the pass completes with the task still InProgress. Without a
`ProfileManager` (bare `run_parallel_execution`), or after a prior success in
the same worker bound `actual_turns`, the handler completes and the task ends
Blocked with the tracker bumped. -/
theorem failed_task_left_in_progress (st : PassState) (it : WorkItem)
    (hv : (validate_input it.desc).1 = true)
    (hc : (st.breaker.is_open it.desc).1 = false)
    (hskip : ¬(it.status = TaskStatus.blocked ∧
      MAX_BLOCKED_RETRIES ≤ st.tracker it.desc))
    (hfail : it.outcome = false) :
    (st.profile_manager = true → st.actual_turns_bound = false →
      (processItem st it).ledger it.desc = .in_progress ∧
      (processItem st it).tracker it.desc = st.tracker it.desc ∧
      (processItem st it).breaker = st.breaker.record_action it.desc false) ∧
    (st.profile_manager = false →
      (processItem st it).ledger it.desc = .blocked ∧
      (processItem st it).tracker it.desc = st.tracker it.desc + 1) := by
  unfold processItem
  rw [hv]
  simp only [Bool.not_true, Bool.false_eq_true, if_false]
  rw [hc]
  simp only [Bool.false_eq_true, if_false]
  rw [if_neg hskip]
  rw [hfail]
  simp only [Bool.false_eq_true, if_false]
  constructor
  · intro hpm hbound
    rw [hpm, hbound]
    simp [setLedger]
  · intro hpm
    rw [hpm]
    simp [setLedger, bumpTracker]

/-- Witness for C1's divergence at a concrete completed pass: one failing
task, fresh worker, `ProfileManager` wired — the pass ends with the task
InProgress (no cancellation anywhere in the model); with `profile_manager :=
false` the same pass ends Blocked. -/
theorem failed_task_left_in_progress_witness :
    (runPass
        { ledger := fun _ => TaskStatus.todo, tracker := fun _ => 0,
          breaker := {}, profile_manager := true, actual_turns_bound := false }
        [⟨"run e2e tests", .todo, false⟩]).ledger "run e2e tests" =
      .in_progress ∧
    (runPass
        { ledger := fun _ => TaskStatus.todo, tracker := fun _ => 0,
          breaker := {}, profile_manager := false, actual_turns_bound := false }
        [⟨"run e2e tests", .todo, false⟩]).ledger "run e2e tests" =
      .blocked := by
  constructor
  · exact ((failed_task_left_in_progress
      { ledger := fun _ => TaskStatus.todo, tracker := fun _ => 0,
        breaker := {}, profile_manager := true, actual_turns_bound := false }
      ⟨"run e2e tests", .todo, false⟩
      (by decide) (by decide) (by decide) rfl).1 rfl rfl).1
  · exact ((failed_task_left_in_progress
      { ledger := fun _ => TaskStatus.todo, tracker := fun _ => 0,
        breaker := {}, profile_manager := false, actual_turns_bound := false }
      ⟨"run e2e tests", .todo, false⟩
      (by decide) (by decide) (by decide) rfl).2 rfl).1

/-- C2 counterexample: a `request_turn_budget(10)` call recomputes the soft
limit to `max(20, 10) = 20`, not `max(40, 10) = 40` as the claim's
`minimumDefault` (40, the constant used at initialization) would give; with
default metadata, after such a call at turn 1 the unit hard-fails already at
turn 41, which the claimed limits (soft 40 / hard 80) would forbid. -/
theorem turn_budget_recompute_min20_counterexample :
    (stepEvent (initialRunState 40) ⟨[some 10]⟩ =
      .ok { turn_count := 1, soft_limit := 20, hard_limit := 40,
            warned_turns := [] }) ∧
    ((20 : Int) ≠ max 40 10) ∧
    (runAgent 40 (⟨[some 10]⟩ :: List.replicate 40 ⟨[]⟩) =
      .error (.hardLimitExceeded 40)) := by
  refine ⟨rfl, by decide, rfl⟩

set_option maxRecDepth 20000 in
/-- C2 (amended): the turn budget initializes `soft = max(40, estimate-or-40)`
and `hard = 2×soft`; each turn with `soft < c ≤ hard` emits a non-fatal warning
and continues; any turn with `c > hard` aborts with `HardLimitExceeded`; a
`request_turn_budget(estimate)` call recomputes `soft = max(20, estimate)`
(minimum 20, not the initialization minimum 40) and `hard = 2×soft` without
resetting the counter; with defaults the unit warns at turn 41 and fails at
turn 81, and after `request_turn_budget(100)` at turn 10 it does not fail at
turn 81. -/
theorem turn_budget_state_machine (ib : Int) (st : AgentRunState)
    (est : Int) (ev : WorkEvent) :
    ((initialRunState ib).soft_limit = max 40 ib ∧
      (initialRunState ib).hard_limit = max 40 ib * 2 ∧
      (initialRunState ib).turn_count = 0) ∧
    (let lims := ev.budget_calls.foldl applyBudgetCall (st.soft_limit, st.hard_limit)
     (lims.1 < ((st.turn_count + 1 : Nat) : Int) →
        ((st.turn_count + 1 : Nat) : Int) ≤ lims.2 →
        stepEvent st ev =
          .ok { turn_count := st.turn_count + 1, soft_limit := lims.1,
                hard_limit := lims.2,
                warned_turns := st.warned_turns ++ [st.turn_count + 1] }) ∧
     (lims.2 < ((st.turn_count + 1 : Nat) : Int) →
        stepEvent st ev = .error (.hardLimitExceeded lims.2))) ∧
    (∀ res, stepEvent st ⟨[some est]⟩ = .ok res →
        res.soft_limit = max 20 est ∧ res.hard_limit = max 20 est * 2 ∧
        res.turn_count = st.turn_count + 1) ∧
    (runAgent 40 (List.replicate 41 ⟨[]⟩) =
      .ok { turn_count := 41, soft_limit := 40, hard_limit := 80,
            warned_turns := [41] }) ∧
    (runAgent 40 (List.replicate 81 ⟨[]⟩) = .error (.hardLimitExceeded 80)) ∧
    (runAgent 40 (List.replicate 9 ⟨[]⟩ ++ ⟨[some 100]⟩ :: List.replicate 71 ⟨[]⟩) =
      .ok { turn_count := 81, soft_limit := 100, hard_limit := 200,
            warned_turns := [] }) := by
  refine ⟨⟨rfl, rfl, rfl⟩, ⟨?_, ?_⟩, ?_, rfl, rfl, rfl⟩
  · intro hsoft hhard
    simp only [stepEvent]
    rw [if_neg (by omega), if_pos ⟨hsoft, hhard⟩]
  · intro hhard
    simp only [stepEvent]
    rw [if_pos hhard]
  · intro res hres
    simp only [stepEvent, List.foldl, applyBudgetCall, Option.getD] at hres
    split at hres
    · exact absurd hres (by simp)
    · have heq := Except.ok.inj hres
      subst heq
      refine ⟨rfl, rfl, rfl⟩

/-- Witness for C2 (amended) at concrete inputs: one plain step past the soft
limit from a concrete state both warns and continues. -/
theorem turn_budget_state_machine_witness :
    stepEvent { turn_count := 40, soft_limit := 40, hard_limit := 80,
                warned_turns := [] } ⟨[]⟩ =
      .ok { turn_count := 41, soft_limit := 40, hard_limit := 80,
            warned_turns := [41] } := by
  have h := (turn_budget_state_machine 40
    { turn_count := 40, soft_limit := 40, hard_limit := 80, warned_turns := [] }
    100 ⟨[]⟩).2.1.1
  exact h (by decide) (by decide)

/- ### Theorems about PII validation (`validate_output`) -/

/-- C9: `validate_output` flags any PII-detector hit as a blocking violation —
`is_valid` is false whenever the detector finds at least one match — while
still returning the masked variant produced by `mask_pii`; on
`"Contact me at a@b.com or 555-123-4567"` the sanitized output is
`"Contact me at [EMAIL_REDACTED] or [PHONE_REDACTED]"`, which contains
neither the literal email nor the literal phone number and contains both
category placeholders. -/
theorem validate_output_pii_blocks (agent_output : String) :
    (detect agent_output.toList ≠ [] →
      (validate_output agent_output).1 = false ∧
      (validate_output agent_output).2.2 =
        String.mk (mask_pii agent_output.toList)) ∧
    validate_output "Contact me at a@b.com or 555-123-4567" =
      (false,
       [⟨"block", "PII detected: 2 instances", "pii_exposure"⟩],
       "Contact me at [EMAIL_REDACTED] or [PHONE_REDACTED]") ∧
    listContains "Contact me at [EMAIL_REDACTED] or [PHONE_REDACTED]".toList
      "a@b.com".toList = false ∧
    listContains "Contact me at [EMAIL_REDACTED] or [PHONE_REDACTED]".toList
      "555-123-4567".toList = false ∧
    listContains "Contact me at [EMAIL_REDACTED] or [PHONE_REDACTED]".toList
      "[EMAIL_REDACTED]".toList = true ∧
    listContains "Contact me at [EMAIL_REDACTED] or [PHONE_REDACTED]".toList
      "[PHONE_REDACTED]".toList = true := by
  refine ⟨?_, by decide, by decide, by decide, by decide, by decide⟩
  intro h
  unfold validate_output
  dsimp only
  rw [if_pos h, if_pos h]
  constructor
  · simp
  · rfl

/-- Witness for C9 at the spec's concrete input: the detector fires, the
output is invalid, and the sanitized text is the masked one. -/
theorem validate_output_pii_blocks_witness :
    detect "Contact me at a@b.com or 555-123-4567".toList ≠ [] ∧
    (validate_output "Contact me at a@b.com or 555-123-4567").1 = false ∧
    (validate_output "Contact me at a@b.com or 555-123-4567").2.2 =
      String.mk (mask_pii "Contact me at a@b.com or 555-123-4567".toList) := by
  have h : detect "Contact me at a@b.com or 555-123-4567".toList ≠ [] := by
    decide
  exact ⟨h,
    (validate_output_pii_blocks "Contact me at a@b.com or 555-123-4567").1 h⟩
